import Mathlib

/-!
# Verification of the pdfscreenshotter Auto Capture core

A shallow embedding, in Lean 4, of the algorithmic core of the
`pdfscreenshotter` web application, together with theorems settling the
specification claims about it.

Embedded components (each definition's doc comment names the source
function it embeds):

* the range normalizer (`rangeUtils` / `src/unnamed/part_002`);
* the active-page resolver `getActivePageFromIntersections`;
* the capture debouncer `debounceActivePage` and its use
  `debouncedOnActive` in `PdfViewer.tsx`;
* the per-page undo/redo model of the annotation store
  (`ExportSettingsContext.tsx`, `AutoCaptureProvider`);
* the capture-state context operations (`addCapture`, `removeCapture`,
  `setCapture`, `removeSelectedCaptures`, `clearAllCaptures`, selection
  operations) with explicit accounting of issued and revoked thumbnail
  object URLs;
* the capture pipeline of `PdfViewer.tsx` (`performCapture`,
  `debouncedOnActive`, `handleCaptureNow`, `handleRecapture`) as a
  small-step event system over the interleavings of the single-threaded
  event loop;
* the dimension-gated flattening step `compositeCanvasesToBlob`.

JavaScript numbers are modelled as exact rationals (`ℚ`) where fractional
values occur (intersection ratios) and as integers elsewhere; `Map` and
`Set` are modelled as insertion-ordered association lists with unique
keys; `Record` objects with a `?? default` read discipline are modelled
as total functions out of the page number.
-/

attribute [local semireducible] Rat.add Rat.mul Rat.inv Rat.ofScientific

namespace PdfScreenshotter

/-! ## Range normalizer (`rangeUtils`) -/

/-- Embeds `PageRange` of `rangeUtils`: `{ id, start, end }`.  The source field
`end` is a Lean keyword and is embedded as `stop`. -/
structure PageRange where
  id : String
  start : Int
  stop : Int
deriving DecidableEq, Repr

/-- Embeds `NormalizedRange` of `rangeUtils`; the source field `end` is embedded
as `stop`. -/
structure NormalizedRange where
  start : Int
  stop : Int
deriving DecidableEq, Repr

/-- The `.map` step of `normalizeRangesForExport`:
`{ start: Math.min(r.start, r.end), end: Math.max(r.start, r.end) }`. -/
def swapRange (r : PageRange) : NormalizedRange :=
  { start := min r.start r.stop, stop := max r.start r.stop }

/-- One iteration of the merge-sweep loop of `normalizeRangesForExport`.
The accumulator is the `merged` array in reverse order, so that `last =
merged[merged.length - 1]` is its head: a new group `r` is pushed when
`r.start > last.end + 1`, otherwise the previous group's end is extended
to `Math.max(last.end, r.end)`. -/
def mergeStep (acc : List NormalizedRange) (r : NormalizedRange) : List NormalizedRange :=
  match acc with
  | [] => [r]
  | last :: rest =>
    if r.start > last.stop + 1 then r :: last :: rest
    else { start := last.start, stop := max last.stop r.stop } :: rest

/-- The comparator `(a, b) => a.start - b.start` of
`normalizeRangesForExport`, as the ordering it sorts by. -/
def byStart (a b : NormalizedRange) : Prop := a.start ≤ b.start

instance : DecidableRel byStart := fun a b => Int.decLe a.start b.start

instance : IsTotal NormalizedRange byStart := ⟨fun a b => Int.le_total a.start b.start⟩

instance : IsTrans NormalizedRange byStart := ⟨fun _ _ _ h h' => le_trans h h'⟩

/-- Embeds `normalizeRangesForExport` of `rangeUtils`: swap each pair so
`start ≤ end`, sort by `start` ascending (a stable sort, like JS
`Array.prototype.sort`; Mathlib's stable `insertionSort` stands in), then
merge-sweep adjacent or overlapping groups. -/
def normalizeRangesForExport (ranges : List PageRange) : List NormalizedRange :=
  ((List.insertionSort byStart (ranges.map swapRange)).foldl mergeStep []).reverse

/-! ## Active-page resolver (`getActivePageFromIntersections`) -/

/-- The leader-election loop of `getActivePageFromIntersections`: fold
over the entries of the ratio map, replacing the best candidate whenever
a strictly higher ratio is seen, starting from `(null, 0)`. -/
def bestEntry (entries : List (Nat × ℚ)) : Option Nat × ℚ :=
  entries.foldl (fun acc e => if e.2 > acc.2 then (some e.1, e.2) else acc) (none, 0)

/-- Embeds `entries.get(currentActive) ?? 0` of `getActivePageFromIntersections`. -/
def ratioAt (entries : List (Nat × ℚ)) (p : Nat) : ℚ :=
  ((entries.find? fun e => e.1 == p).map Prod.snd).getD 0

/-- Embeds `getActivePageFromIntersections` of `captureUtils`: pick the entry
with the strictly highest ratio as leader; with a current active page
that differs from the leader, keep the current page when its ratio is
still `≥ 0.2` and the leader's ratio is `< currentRatio + 0.15`. -/
def getActivePageFromIntersections (entries : List (Nat × ℚ))
    (currentActive : Option Nat) : Option Nat :=
  if entries.isEmpty then none
  else
    match bestEntry entries with
    | (none, _) => none
    | (some bestPage, bestR) =>
      match currentActive with
      | none => some bestPage
      | some cur =>
        let currentR := ratioAt entries cur
        if bestPage ≠ cur ∧ currentR ≥ 0.2 ∧ bestR < currentR + 0.15 then
          some cur
        else some bestPage

/-! ## Capture debouncer (`debounceActivePage`) -/

/-- Embeds `DEBOUNCE_MS` of `PdfViewer.tsx`. -/
def DEBOUNCE_MS : Nat := 150

/-- The closure state of `debounceActivePage`: `timeoutId` is modelled by
the deadline of the single pending timer (`none` when no timer is
pending) and `lastValue : T | undefined` by an `Option`. -/
structure DebState (α : Type) where
  timeoutId : Option Nat
  lastValue : Option α
deriving DecidableEq, Repr

/-- The initial closure state: `timeoutId = null`, `lastValue = undefined`. -/
def debInit {α : Type} : DebState α := ⟨none, none⟩

/-- The body of the function returned by `debounceActivePage`, called at
time `t` with `value`: store `lastValue = value`, clear any pending timer
and schedule a new one `delayMs` from now. -/
def debCall {α : Type} (delayMs t : Nat) (value : α) (_s : DebState α) : DebState α :=
  { timeoutId := some (t + delayMs), lastValue := some value }

/-- The timer callback of `debounceActivePage`: set `timeoutId = null`
and emit `lastValue` when it is not `undefined`. -/
def debFire {α : Type} (s : DebState α) : Option α × DebState α :=
  (s.lastValue, { s with timeoutId := none })

/-- Event-loop driver for the debouncer closure: feed the timestamped
proposals in order; before a proposal at time `t`, a pending timer whose
deadline lies strictly before `t` fires first, and a timer still pending
after the last proposal fires at its deadline.  Returns the list of
`(time, value)` invocations of the `onStable` callback. -/
def debRun {α : Type} (delayMs : Nat) (s : DebState α) :
    List (Nat × α) → List (Nat × α)
  | [] =>
    match s.timeoutId, (debFire s).1 with
    | some d, some v => [(d, v)]
    | _, _ => []
  | (t, v) :: rest =>
    let fired :=
      match s.timeoutId, (debFire s).1 with
      | some d, some w => if d < t then [(d, w)] else []
      | _, _ => []
    fired ++ debRun delayMs (debCall delayMs t v s) rest

/-- The `onStable` invocations produced by feeding a fresh
`debounceActivePage(delayMs, onStable)` closure the given proposals. -/
def debounceActivePage {α : Type} (delayMs : Nat) (trace : List (Nat × α)) :
    List (Nat × α) :=
  debRun delayMs debInit trace

/-- Embeds `debouncedOnActive` of `PdfViewer.tsx`, restricted to its null guard:
the debounced callback body starts with `if (page == null) return`, so
only non-null fired values survive as capture triggers.  (The remaining
guards of the callback are modelled in `SysState.step`.) -/
def debouncedOnActive (trace : List (Nat × Option Nat)) : List (Nat × Nat) :=
  (debounceActivePage DEBOUNCE_MS trace).filterMap fun f =>
    match f.2 with
    | some p => some (f.1, p)
    | none => none

/-- Closed form of the debouncer's behaviour on a time-sorted trace: a
proposal fires at `t + delayMs` exactly when no later proposal arrives at
or before that deadline.  `debRun` from the initial state is proved equal
to this (`debRun_eq_debounceFires`). -/
def debounceFires {α : Type} (delayMs : Nat) : List (Nat × α) → List (Nat × α)
  | [] => []
  | (t, v) :: rest =>
    match rest with
    | [] => [(t + delayMs, v)]
    | (t2, _) :: _ =>
      (if t + delayMs < t2 then [(t + delayMs, v)] else []) ++ debounceFires delayMs rest

/-! ## Annotation store (`AutoCaptureProvider`) -/

/-- The annotation record type of `types.ts` as used by the capture
pipeline in `PdfViewer.tsx`: `highlight | pen | text | redaction |
signature`.  Coordinates are exact rationals; `Annot` embeds the source
type named `Annotation`. -/
inductive Annot where
  | highlight (x y width height : ℚ) (opacity : Option ℚ)
  | pen (points : List (ℚ × ℚ)) (strokeWidth : ℚ) (color : String)
  | text (x y width height : ℚ) (content : String) (fontSize : ℚ) (color : String)
  | redaction (x y width height : ℚ)
  | signature (x y width height : ℚ) (imageDataUrl : String)
deriving DecidableEq, Repr

/-- The three per-page `Record`s of `AutoCaptureProvider` that implement
the annotation store: `annotations`, `annotationUndo`, `annotationRedo`.
A `Record<number, T[]>` read with `?? []` is modelled as a total function
defaulting to `[]`. -/
structure AnnotStore where
  annots : Nat → List Annot
  annotUndo : Nat → List (List Annot)
  annotRedo : Nat → List (List Annot)

/-- The provider's initial state `{}` for all three records. -/
def AnnotStore.empty : AnnotStore := ⟨fun _ => [], fun _ => [], fun _ => []⟩

/-- Embeds `appendAnnotation` of `AutoCaptureProvider`: append to the page's
current list, push the pre-append list onto the page's undo stack, clear
the page's redo stack.  Embeds the source function `appendAnnotation`. -/
def appendAnnot (pageNum : Nat) (a : Annot) (s : AnnotStore) : AnnotStore :=
  let current := s.annots pageNum
  { annots := Function.update s.annots pageNum (current ++ [a])
    annotUndo := Function.update s.annotUndo pageNum (s.annotUndo pageNum ++ [current])
    annotRedo := Function.update s.annotRedo pageNum [] }

/-- Embeds `removeLastAnnotation` of `AutoCaptureProvider` (eraser): drop the
last annotation, pushing the pre-removal list onto undo and clearing
redo; no-op on an empty list. -/
def removeLastAnnot (pageNum : Nat) (s : AnnotStore) : AnnotStore :=
  let current := s.annots pageNum
  if current.isEmpty then s
  else
    { annots := Function.update s.annots pageNum current.dropLast
      annotUndo := Function.update s.annotUndo pageNum (s.annotUndo pageNum ++ [current])
      annotRedo := Function.update s.annotRedo pageNum [] }

/-- Embeds `undoAnnotation` of `AutoCaptureProvider`: when the page's undo stack
is non-empty, pop its most recent saved list into `annotations[pageNum]`
and push the pre-undo current list onto the page's redo stack. -/
def undoAnnot (pageNum : Nat) (s : AnnotStore) : AnnotStore :=
  let undoStack := s.annotUndo pageNum
  if undoStack.isEmpty then s
  else
    { annots := Function.update s.annots pageNum (undoStack.getLast?.getD [])
      annotUndo := Function.update s.annotUndo pageNum undoStack.dropLast
      annotRedo := Function.update s.annotRedo pageNum
        (s.annotRedo pageNum ++ [s.annots pageNum]) }

/-- Embeds `redoAnnotation` of `AutoCaptureProvider`: the mirror of
`undoAnnot`. -/
def redoAnnot (pageNum : Nat) (s : AnnotStore) : AnnotStore :=
  let redoStack := s.annotRedo pageNum
  if redoStack.isEmpty then s
  else
    { annots := Function.update s.annots pageNum (redoStack.getLast?.getD [])
      annotRedo := Function.update s.annotRedo pageNum redoStack.dropLast
      annotUndo := Function.update s.annotUndo pageNum
        (s.annotUndo pageNum ++ [s.annots pageNum]) }

/-! ## Capture state machine (`AutoCaptureProvider`) -/

/-- Embeds `CapturedPage` of `types.ts`: `{ fullSizeBlob: Blob; thumbnailUrl:
string }`.  The blob is abstracted to an identifier. -/
structure CapturedPage where
  fullSizeBlob : Nat
  thumbnailUrl : String
deriving DecidableEq, Repr

/-- Embeds `captures.get(k)` on the insertion-ordered association list that
models a JS `Map`. -/
def mapGet (m : List (Nat × CapturedPage)) (k : Nat) : Option CapturedPage :=
  (m.find? fun e => e.1 == k).map Prod.snd

/-- Embeds `captures.set(k, v)`: replace in place when the key is present
(keeping insertion order), else append. -/
def mapSet (m : List (Nat × CapturedPage)) (k : Nat) (v : CapturedPage) :
    List (Nat × CapturedPage) :=
  if m.any fun e => e.1 == k then
    m.map fun e => if e.1 == k then (k, v) else e
  else m ++ [(k, v)]

/-- Embeds `captures.delete(k)`. -/
def mapDelete (m : List (Nat × CapturedPage)) (k : Nat) : List (Nat × CapturedPage) :=
  m.filter fun e => e.1 ≠ k

/-- Embeds `set.add(k)` on the insertion-ordered list that models a JS `Set`. -/
def setAdd (s : List Nat) (k : Nat) : List Nat :=
  if k ∈ s then s else s ++ [k]

/-- Embeds `set.delete(k)`. -/
def setDelete (s : List Nat) (k : Nat) : List Nat :=
  s.filter fun p => p ≠ k

/-- The capture-related state of `AutoCaptureProvider`: the `captures`
map, the `capturingSet` and the `selectedForExport` set.  (`capturedSet`
is derived: it is `captures.keys()`.) -/
structure AutoCaptureState where
  captures : List (Nat × CapturedPage)
  capturingSet : List Nat
  selectedForExport : List Nat
deriving DecidableEq, Repr

/-- The provider's initial state: empty map, empty sets. -/
def AutoCaptureState.empty : AutoCaptureState := ⟨[], [], []⟩

/-- Embeds `new Set(captures.keys())`, the derived `capturedSet`. -/
def capturedSet (s : AutoCaptureState) : List Nat := s.captures.map Prod.fst

/-- The truthiness test `c?.thumbnailUrl` of the revocation guards: the
thumbnail URL of an entry, provided it exists and is not the empty
(falsy) string. -/
def thumbIfNonEmpty (oc : Option CapturedPage) : Option String :=
  match oc with
  | some c => if c.thumbnailUrl ≠ "" then some c.thumbnailUrl else none
  | none => none

/-- Embeds the guard `if (existing?.thumbnailUrl) URL.revokeObjectURL(existing.thumbnailUrl)`:
the object URLs revoked when the entry stored at `k` (if any) is about to
be replaced or deleted; an empty string is falsy and is not revoked. -/
def revokeOf (m : List (Nat × CapturedPage)) (k : Nat) : List String :=
  (thumbIfNonEmpty (mapGet m k)).toList

/-- Embeds `addCapture` of `AutoCaptureProvider`: drop the page from
`capturingSet`, revoke the replaced entry's thumbnail URL, store the new
capture, and add the page to `selectedForExport`.  Returns the new state
and the revoked URLs. -/
def addCapture (pageNum : Nat) (cap : CapturedPage) (s : AutoCaptureState) :
    AutoCaptureState × List String :=
  ({ captures := mapSet s.captures pageNum cap
     capturingSet := setDelete s.capturingSet pageNum
     selectedForExport := setAdd s.selectedForExport pageNum },
   revokeOf s.captures pageNum)

/-- Embeds `removeCapture` of `AutoCaptureProvider` (undo-capture): drop the
page from `capturingSet`, revoke the stored thumbnail URL, delete the
entry, and remove the page from `selectedForExport`. -/
def removeCapture (pageNum : Nat) (s : AutoCaptureState) :
    AutoCaptureState × List String :=
  ({ captures := mapDelete s.captures pageNum
     capturingSet := setDelete s.capturingSet pageNum
     selectedForExport := setDelete s.selectedForExport pageNum },
   revokeOf s.captures pageNum)

/-- Embeds `setCapture` of `AutoCaptureProvider` (recapture): revoke the
replaced entry's thumbnail URL and store the new capture; `capturingSet`
and `selectedForExport` are untouched. -/
def setCapture (pageNum : Nat) (cap : CapturedPage) (s : AutoCaptureState) :
    AutoCaptureState × List String :=
  ({ s with captures := mapSet s.captures pageNum cap },
   revokeOf s.captures pageNum)

/-- Embeds `toggleSelected` of `AutoCaptureProvider`. -/
def toggleSelected (pageNum : Nat) (s : AutoCaptureState) : AutoCaptureState :=
  { s with selectedForExport :=
      if pageNum ∈ s.selectedForExport then setDelete s.selectedForExport pageNum
      else setAdd s.selectedForExport pageNum }

/-- Embeds `selectAllCaptured` of `AutoCaptureProvider`:
`setSelectedForExport(new Set(prev.keys()))`. -/
def selectAllCaptured (s : AutoCaptureState) : AutoCaptureState :=
  { s with selectedForExport := s.captures.map Prod.fst }

/-- Embeds `deselectAllCaptured` of `AutoCaptureProvider`. -/
def deselectAllCaptured (s : AutoCaptureState) : AutoCaptureState :=
  { s with selectedForExport := [] }

/-- Embeds `addCapturing` of `AutoCaptureProvider`. -/
def addCapturing (pageNum : Nat) (s : AutoCaptureState) : AutoCaptureState :=
  { s with capturingSet := setAdd s.capturingSet pageNum }

/-- Embeds `removeCapturing` of `AutoCaptureProvider`. -/
def removeCapturing (pageNum : Nat) (s : AutoCaptureState) : AutoCaptureState :=
  { s with capturingSet := setDelete s.capturingSet pageNum }

/-- Embeds `removeSelectedCaptures` of `AutoCaptureProvider`: compute `toRemove
= captures.keys() ∩ selectedForExport` (in key order), revoke and delete
each of those entries, and drop them from the selection. -/
def removeSelectedCaptures (s : AutoCaptureState) : AutoCaptureState × List String :=
  let toRemove := (s.captures.map Prod.fst).filter fun pn => pn ∈ s.selectedForExport
  ({ captures := s.captures.filter fun e => e.1 ∉ toRemove
     capturingSet := s.capturingSet
     selectedForExport := s.selectedForExport.filter fun pn => pn ∉ toRemove },
   toRemove.filterMap fun pn => thumbIfNonEmpty (mapGet s.captures pn))

/-- Embeds `clearAllCaptures` of `AutoCaptureProvider`: revoke every stored
thumbnail URL, empty the map and both sets. -/
def clearAllCaptures (s : AutoCaptureState) : AutoCaptureState × List String :=
  (AutoCaptureState.empty,
   s.captures.filterMap fun e => thumbIfNonEmpty (some e.2))

/-! ### Thumbnail object-URL accounting -/

/-- The context operations that create, replace or delete `CapturedPage`
entries or touch the selection, as a syntax of events for URL-lifetime
accounting.  `add`/`set` carry the capture whose `thumbnailUrl` was just
issued by `URL.createObjectURL`. -/
inductive CtxOp where
  | add (p : Nat) (cap : CapturedPage)
  | set (p : Nat) (cap : CapturedPage)
  | remove (p : Nat)
  | removeSelected
  | clearAll
  | toggle (p : Nat)
  | selectAll
  | deselectAll
  | beginCapturing (p : Nat)
  | stopCapturing (p : Nat)
deriving DecidableEq, Repr

/-- The thumbnail URLs issued by an operation (those passed into the
state by `addCapture`/`setCapture`, fresh from `URL.createObjectURL`). -/
def CtxOp.issued : CtxOp → List String
  | .add _ cap => [cap.thumbnailUrl]
  | .set _ cap => [cap.thumbnailUrl]
  | _ => []

/-- All thumbnail URLs issued along a list of operations, in order. -/
def issuedThumbs (ops : List CtxOp) : List String :=
  ops.flatMap CtxOp.issued

/-- Apply one context operation, returning the new state and the URLs it
revoked. -/
def runCtxOp (s : AutoCaptureState) : CtxOp → AutoCaptureState × List String
  | .add p cap => addCapture p cap s
  | .set p cap => setCapture p cap s
  | .remove p => removeCapture p s
  | .removeSelected => removeSelectedCaptures s
  | .clearAll => clearAllCaptures s
  | .toggle p => (toggleSelected p s, [])
  | .selectAll => (selectAllCaptured s, [])
  | .deselectAll => (deselectAllCaptured s, [])
  | .beginCapturing p => (addCapturing p s, [])
  | .stopCapturing p => (removeCapturing p s, [])

/-- Run a list of context operations from `s`, accumulating the revoked
URLs. -/
def runCtxOps (s : AutoCaptureState) : List CtxOp → AutoCaptureState × List String
  | [] => (s, [])
  | op :: ops =>
    ((runCtxOps (runCtxOp s op).1 ops).1,
     (runCtxOp s op).2 ++ (runCtxOps (runCtxOp s op).1 ops).2)

/-- The thumbnail URL stored in a map entry. -/
def thumbOf (e : Nat × CapturedPage) : String := e.2.thumbnailUrl

/-- The thumbnail URLs of the currently stored `CapturedPage` entries. -/
def storedThumbs (m : List (Nat × CapturedPage)) : List String := m.map thumbOf

/-- The keys of the captures map. -/
def keysOf (m : List (Nat × CapturedPage)) : List Nat := m.map Prod.fst

/-- The object-URL accounting invariant tying a captures map to the
multiset of issued and revoked thumbnail URLs: every issued URL is either
stored or revoked and vice versa, no stored URL has been revoked, stored
thumbnails and keys are duplicate-free, and no stored thumbnail is the
empty (falsy) string. -/
structure UrlInv (m : List (Nat × CapturedPage)) (issued revoked : List String) : Prop where
  issue_iff : ∀ u, u ∈ issued ↔ (u ∈ storedThumbs m ∨ u ∈ revoked)
  stored_not_revoked : ∀ u ∈ storedThumbs m, u ∉ revoked
  thumbs_nodup : (storedThumbs m).Nodup
  keys_nodup : (keysOf m).Nodup
  thumbs_ne : ∀ u ∈ storedThumbs m, u ≠ ""

/-! ## Capture pipeline of `PdfViewer.tsx` as an event system -/

/-- How a capture was requested: by the debounced auto-capture callback,
by the `Capture now` button (`handleCaptureNow`), or by the `Recapture`
button (`handleRecapture`). -/
inductive Origin where
  | auto
  | now
  | recap
deriving DecidableEq, Repr

/-- An asynchronous `performCapture(pageNum, replace)` invocation whose
synchronous prefix has run and whose continuation has not yet resumed. -/
structure Flight where
  pageNum : Nat
  replace : Bool
deriving DecidableEq, Repr

/-- The `PdfViewer` state relevant to capture concurrency: the context
state, the `autoCaptureEnabled` flag, the shared guard `capturingRef`,
the list of in-flight `performCapture` invocations, the surfaced
`onError` messages and a log of every capture start (origin and page). -/
structure SysState where
  ctx : AutoCaptureState
  autoCaptureEnabled : Bool
  capturingRef : Bool
  inFlight : List Flight
  errors : List String
  captureLog : List (Origin × Nat)
deriving DecidableEq, Repr

/-- The initial `PdfViewer` state. -/
def initSys : SysState :=
  { ctx := AutoCaptureState.empty
    autoCaptureEnabled := true
    capturingRef := false
    inFlight := []
    errors := []
    captureLog := [] }

/-- The synchronous prefix of `performCapture(pageNum, replace)`: no-op
when `capturingRef.current` is held; otherwise take the guard, mark the
page capturing unless this is a recapture (`replace`), and leave the rest
of the capture in flight. -/
def performCaptureStart (origin : Origin) (pageNum : Nat) (replace : Bool)
    (s : SysState) : SysState :=
  if s.capturingRef then s
  else
    { s with
      capturingRef := true
      ctx := if replace then s.ctx else addCapturing pageNum s.ctx
      inFlight := s.inFlight ++ [⟨pageNum, replace⟩]
      captureLog := s.captureLog ++ [(origin, pageNum)] }

/-- Events of the capture pipeline: `settle p` is the debounced
auto-capture callback firing with page `p`; `captureNow` and `recapture`
are the user actions; `undoCapture` is the `Undo capture` button
(`removeCapture`); `finish i res msg` resumes the `i`-th in-flight
capture, with `res = some cap` on success and `res = none` (carrying the
error message) on failure. -/
inductive SysEv where
  | settle (p : Nat)
  | captureNow (p : Nat)
  | recapture (p : Nat)
  | undoCapture (p : Nat)
  | finish (i : Nat) (res : Option CapturedPage) (msg : String)
deriving DecidableEq, Repr

/-- One step of the capture pipeline.

* `settle p`: the body of the `debouncedOnActive` callback — return when
  auto-capture is off or `capturedSet`/`capturingSet` contains `p`, else
  `performCapture(p)`.
* `captureNow p`: `performCapture(p)`.
* `recapture p`: `handleRecapture` — force `capturingRef.current = false`
  then `performCapture(p, true)`.
* `undoCapture p`: `removeCapture(p)` on the context.
* `finish i res msg`: the continuation of the `i`-th in-flight
  `performCapture`: on success store via `setCapture` (recapture) or
  `addCapture` (fresh); on failure run `removeCapturing` unless it was a
  recapture and surface one `Capture failed` message; in both cases the
  `finally` block clears `capturingRef`. -/
def sysStep (s : SysState) : SysEv → SysState
  | .settle p =>
    if !s.autoCaptureEnabled then s
    else if p ∈ capturedSet s.ctx ∨ p ∈ s.ctx.capturingSet then s
    else performCaptureStart .auto p false s
  | .captureNow p => performCaptureStart .now p false s
  | .recapture p => performCaptureStart .recap p true { s with capturingRef := false }
  | .undoCapture p => { s with ctx := (removeCapture p s.ctx).1 }
  | .finish i res msg =>
    match s.inFlight[i]? with
    | none => s
    | some fl =>
      let s1 := { s with inFlight := s.inFlight.eraseIdx i }
      let s2 :=
        match res with
        | some cap =>
          if fl.replace then { s1 with ctx := (setCapture fl.pageNum cap s1.ctx).1 }
          else { s1 with ctx := (addCapture fl.pageNum cap s1.ctx).1 }
        | none =>
          { s1 with
            ctx := if fl.replace then s1.ctx else removeCapturing fl.pageNum s1.ctx
            errors := s1.errors ++ ["Capture failed: " ++ msg] }
      { s2 with capturingRef := false }

/-- Run a list of events from `s`. -/
def runSys (s : SysState) (evs : List SysEv) : SysState :=
  evs.foldl sysStep s

/-- The per-page capture status of §4.3 of the spec, derived from the
state: `captured` when an entry is stored, else `capturing` when the page
is in `capturingSet`, else `idle`. -/
inductive Status where
  | idle
  | capturing
  | captured
deriving DecidableEq, Repr

/-- Derive a page's status from the context state. -/
def statusOf (ctx : AutoCaptureState) (p : Nat) : Status :=
  if p ∈ capturedSet ctx then .captured
  else if p ∈ ctx.capturingSet then .capturing
  else .idle

/-! ## Compositor flattening step (`compositeCanvasesToBlob`) -/

/-- A pixel surface: dimensions plus abstract content. -/
structure Canvas where
  width : Nat
  height : Nat
  image : Nat
deriving DecidableEq, Repr

/-- Embeds `ExportFormat` of `types.ts`. -/
inductive ExportFormat where
  | png
  | jpg
deriving DecidableEq, Repr

/-- The encoded output of `compositeCanvasesToBlob`: the stack of images
drawn onto the output canvas (in draw order), its dimensions, the chosen
MIME type and the quality argument passed to `toBlob`. -/
structure BlobModel where
  layers : List Nat
  width : Nat
  height : Nat
  mime : String
  quality : Option ℚ
deriving DecidableEq, Repr

/-- Embeds `compositeCanvasesToBlob` of `captureUtils`: create an output canvas
of the PDF canvas's dimensions, draw the PDF canvas, then draw the
overlay only when it exists and its width and height both equal the
output's; encode as `image/jpeg` at `jpgQuality` for `jpg`, else as
`image/png` with no quality argument. -/
def compositeCanvasesToBlob (pdfCanvas : Canvas) (overlayCanvas : Option Canvas)
    (format : ExportFormat) (jpgQuality : ℚ) : BlobModel :=
  let w := pdfCanvas.width
  let h := pdfCanvas.height
  let base := [pdfCanvas.image]
  let layers :=
    match overlayCanvas with
    | some ov => if ov.width = w ∧ ov.height = h then base ++ [ov.image] else base
    | none => base
  { layers := layers
    width := w
    height := h
    mime := match format with | .jpg => "image/jpeg" | .png => "image/png"
    quality := match format with | .jpg => some jpgQuality | .png => none }

/-! ## Shared helper lemmas -/

/-- Distinct members of a list whose image under `f` has no duplicates
have distinct images. -/
theorem map_nodup_ne {α β : Type} {f : α → β} {m : List α}
    (h : (m.map f).Nodup) {e e' : α} (he : e ∈ m) (he' : e' ∈ m)
    (hne : e ≠ e') : f e ≠ f e' := by
  have hp : m.Pairwise fun a b => f a ≠ f b := List.pairwise_map.mp h
  have hsymm : Symmetric fun a b => f a ≠ f b := fun a b hab h' => hab h'.symm
  exact hp.forall hsymm he he' hne

/-- In a list with pairwise-distinct keys, a key determines its value. -/
theorem pairwise_key_eq {β : Type} {l : List (Nat × β)}
    (hk : l.Pairwise fun a b => a.1 ≠ b.1) {p : Nat} {r r' : β}
    (h1 : (p, r) ∈ l) (h2 : (p, r') ∈ l) : r = r' := by
  by_cases heq : ((p, r) : Nat × β) = (p, r')
  · exact congrArg Prod.snd heq
  · have hsymm : Symmetric fun a b : Nat × β => a.1 ≠ b.1 := fun a b hab h' => hab h'.symm
    have hcontra : (p, r).1 ≠ (p, r').1 := List.Pairwise.forall hsymm hk h1 h2 heq
    exact absurd rfl hcontra

/-! ## C8: the range normalizer -/

/-- The merge-sweep loop invariant: starting from a reversed accumulator
that is a gap-separated chain of well-formed intervals whose head starts
no later than any remaining input, folding a sorted list of well-formed
intervals preserves both properties. -/
theorem foldl_mergeStep_inv (l : List NormalizedRange) :
    ∀ acc : List NormalizedRange,
      l.Pairwise byStart →
      (∀ r ∈ l, r.start ≤ r.stop) →
      acc.Pairwise (fun a b => b.stop + 1 < a.start) →
      (∀ r ∈ acc, r.start ≤ r.stop) →
      (∀ h r, acc.head? = some h → r ∈ l → h.start ≤ r.start) →
      (l.foldl mergeStep acc).Pairwise (fun a b => b.stop + 1 < a.start) ∧
      ∀ r ∈ l.foldl mergeStep acc, r.start ≤ r.stop := by
  induction l with
  | nil =>
    intro acc _ _ hp hwf _
    exact ⟨hp, hwf⟩
  | cons r t ih =>
    intro acc hsort hlwf hp hwf hhead
    have hr : r.start ≤ r.stop := hlwf r (List.mem_cons_self r t)
    have htwf : ∀ x ∈ t, x.start ≤ x.stop := fun x hx => hlwf x (List.mem_cons_of_mem r hx)
    obtain ⟨hrt, htsort⟩ := List.pairwise_cons.mp hsort
    rw [List.foldl_cons]
    refine ih (mergeStep acc r) htsort htwf ?_ ?_ ?_
    · -- the new accumulator is still a gap-separated chain
      cases acc with
      | nil => simp [mergeStep]
      | cons last rest =>
        by_cases hgap : r.start > last.stop + 1
        · obtain ⟨hlr, hprest⟩ := List.pairwise_cons.mp hp
          have hlast : last.start ≤ last.stop := hwf last (List.mem_cons_self last rest)
          simp only [mergeStep, if_pos hgap]
          refine List.pairwise_cons.mpr ⟨?_, hp⟩
          intro y hy
          rcases List.mem_cons.mp hy with hyl | hyr
          · subst hyl; exact hgap
          · have h1 : y.stop + 1 < last.start := hlr y hyr
            omega
        · obtain ⟨hlr, hprest⟩ := List.pairwise_cons.mp hp
          simp only [mergeStep, if_neg hgap]
          exact List.pairwise_cons.mpr ⟨fun y hy => hlr y hy, hprest⟩
    · -- the new accumulator intervals are well-formed
      cases acc with
      | nil => simpa [mergeStep] using hr
      | cons last rest =>
        have hlast : last.start ≤ last.stop := hwf last (List.mem_cons_self last rest)
        by_cases hgap : r.start > last.stop + 1
        · simp only [mergeStep, if_pos hgap]
          intro y hy
          rcases List.mem_cons.mp hy with hyl | hyr
          · subst hyl; exact hr
          · exact hwf y hyr
        · simp only [mergeStep, if_neg hgap]
          intro y hy
          rcases List.mem_cons.mp hy with hyl | hyr
          · subst hyl
            exact le_trans hlast (le_max_left _ _)
          · exact hwf y (List.mem_cons_of_mem last hyr)
    · -- the new head starts no later than any remaining input
      cases acc with
      | nil =>
        intro h x hh hx
        have hrh : r = h := by simpa [mergeStep] using hh
        subst hrh
        exact hrt x hx
      | cons last rest =>
        by_cases hgap : r.start > last.stop + 1
        · intro h x hh hx
          have hrh : r = h := by simpa [mergeStep, if_pos hgap] using hh
          subst hrh
          exact hrt x hx
        · intro h x hh hx
          have hrh : { start := last.start, stop := max last.stop r.stop } = h := by
            simpa [mergeStep, if_neg hgap] using hh
          have hhd : h.start = last.start := by rw [← hrh]
          rw [hhd]
          exact hhead last x rfl (List.mem_cons_of_mem r hx)

/-- Output shape of `normalizeRangesForExport`: well-formed intervals,
pairwise in order with a gap of at least 2. -/
theorem normalizeRangesForExport_props (ranges : List PageRange) :
    (normalizeRangesForExport ranges).Pairwise (fun a b => a.stop + 1 < b.start) ∧
    ∀ r ∈ normalizeRangesForExport ranges, r.start ≤ r.stop := by
  unfold normalizeRangesForExport
  have hsort : (List.insertionSort byStart (ranges.map swapRange)).Pairwise byStart :=
    List.sorted_insertionSort byStart (ranges.map swapRange)
  have hwf : ∀ r ∈ List.insertionSort byStart (ranges.map swapRange), r.start ≤ r.stop := by
    intro r hrr
    have hmm : r ∈ ranges.map swapRange :=
      (List.perm_insertionSort byStart (ranges.map swapRange)).mem_iff.mp hrr
    obtain ⟨pr, _, hpr⟩ := List.mem_map.mp hmm
    rw [← hpr]
    exact min_le_max
  obtain ⟨hp, hw⟩ := foldl_mergeStep_inv (List.insertionSort byStart (ranges.map swapRange)) []
    hsort hwf (List.Pairwise.nil) (by intro r hmm; simp at hmm) (by intro h r hh; simp at hh)
  constructor
  · rw [List.pairwise_reverse]
    exact hp
  · intro r hrr
    exact hw r (List.mem_reverse.mp hrr)

/-- C8 — the range normalizer swaps reversed pairs, sorts by start and
merges adjacent/overlapping groups; its output is a sorted list of
pairwise non-overlapping intervals with a gap of at least 2 between an
interval's end and the next interval's start, and the touching/adjacent
pairs {2,3}+{3,3} and {2,3}+{4,6} each merge into a single interval. -/
theorem claimC8 (ranges : List PageRange) :
    ((normalizeRangesForExport ranges).Pairwise fun a b => a.stop + 1 < b.start) ∧
    (∀ r ∈ normalizeRangesForExport ranges, r.start ≤ r.stop) ∧
    normalizeRangesForExport [⟨"a", 2, 3⟩, ⟨"b", 3, 3⟩] = [⟨2, 3⟩] ∧
    normalizeRangesForExport [⟨"a", 2, 3⟩, ⟨"b", 4, 6⟩] = [⟨2, 6⟩] :=
  ⟨(normalizeRangesForExport_props ranges).1,
   (normalizeRangesForExport_props ranges).2,
   by decide, by decide⟩

/-! ## C3: the active-page resolver -/

/-- The leader fold never moves off an accumulator that already beats
every remaining entry. -/
theorem bestEntry_fold_const (l : List (Nat × ℚ)) :
    ∀ acc : Option Nat × ℚ, (∀ e ∈ l, ¬ e.2 > acc.2) →
      l.foldl (fun acc e => if e.2 > acc.2 then (some e.1, e.2) else acc) acc = acc := by
  induction l with
  | nil => intro acc _; rfl
  | cons e t ih =>
    intro acc hle
    rw [List.foldl_cons, if_neg (hle e (List.mem_cons_self e t))]
    exact ih acc fun x hx => hle x (List.mem_cons_of_mem e hx)

/-- The leader fold elects the entry that strictly beats every other
entry, from any accumulator it also beats. -/
theorem bestEntry_fold_spec (l : List (Nat × ℚ)) :
    ∀ acc : Option Nat × ℚ, (p, r) ∈ l → acc.2 < r →
      (∀ e ∈ l, e.1 ≠ p → e.2 < r) →
      (∀ e ∈ l, e.1 = p → e.2 = r) →
      l.foldl (fun acc e => if e.2 > acc.2 then (some e.1, e.2) else acc) acc = (some p, r) := by
  induction l with
  | nil => intro acc hmem; exact absurd hmem (List.not_mem_nil _)
  | cons e t ih =>
    intro acc hmem hacc hlt heq
    rw [List.foldl_cons]
    by_cases hgt : e.2 > acc.2
    · rw [if_pos hgt]
      by_cases hep : e.1 = p
      · have he2 : e.2 = r := heq e (List.mem_cons_self e t) hep
        have hfix : (some e.1, e.2) = ((some p, r) : Option Nat × ℚ) := by
          rw [hep, he2]
        rw [hfix]
        refine bestEntry_fold_const t (some p, r) ?_
        intro x hx
        by_cases hxp : x.1 = p
        · have : x.2 = r := heq x (List.mem_cons_of_mem e hx) hxp
          simp [this]
        · have : x.2 < r := hlt x (List.mem_cons_of_mem e hx) hxp
          simp
          linarith
      · have he2 : e.2 < r := hlt e (List.mem_cons_self e t) hep
        have hmem' : (p, r) ∈ t := by
          rcases List.mem_cons.mp hmem with hpe | hpt
          · exact absurd (congrArg Prod.fst hpe.symm) hep
          · exact hpt
        exact ih (some e.1, e.2) hmem' he2
          (fun x hx => hlt x (List.mem_cons_of_mem e hx))
          (fun x hx => heq x (List.mem_cons_of_mem e hx))
    · rw [if_neg hgt]
      have hmem' : (p, r) ∈ t := by
        rcases List.mem_cons.mp hmem with hpe | hpt
        · exfalso
          have : e.2 = r := by rw [← hpe]
          rw [this] at hgt
          exact hgt hacc
        · exact hpt
      exact ih acc hmem' hacc
        (fun x hx => hlt x (List.mem_cons_of_mem e hx))
        (fun x hx => heq x (List.mem_cons_of_mem e hx))

/-- Lemma: `bestEntry` elects the unique entry with the strictly highest
positive ratio. -/
theorem bestEntry_spec (entries : List (Nat × ℚ)) (p : Nat) (r : ℚ)
    (hk : entries.Pairwise fun a b => a.1 ≠ b.1)
    (hmem : (p, r) ∈ entries) (hpos : 0 < r)
    (hmax : ∀ e ∈ entries, e.1 ≠ p → e.2 < r) :
    bestEntry entries = (some p, r) := by
  unfold bestEntry
  refine bestEntry_fold_spec entries (none, 0) hmem hpos hmax ?_
  intro e he hep
  have : (p, e.2) ∈ entries := by
    have : e = (p, e.2) := Prod.ext hep rfl
    rw [← this]
    exact he
  exact pairwise_key_eq hk this hmem

/-- C3 (amended) — the resolver picks the page with the strictly highest
ratio as leader; with no current page it returns the leader; a current
page is kept exactly when its ratio is still ≥ 0.2 and the leader's
ratio is strictly below current + 0.15; when the leader's advantage is
exactly 0.15 the resolver switches to the leader (the claim's boundary
case is decided the other way).  Includes the spec's hysteresis example
current=3@0.25, leader=4@0.30 ↦ 3. -/
theorem claimC3 (entries : List (Nat × ℚ)) (p : Nat) (r : ℚ)
    (hk : entries.Pairwise fun a b => a.1 ≠ b.1)
    (hmem : (p, r) ∈ entries) (hpos : 0 < r)
    (hmax : ∀ e ∈ entries, e.1 ≠ p → e.2 < r) :
    getActivePageFromIntersections entries none = some p ∧
    getActivePageFromIntersections entries (some p) = some p ∧
    (∀ c, c ≠ p → 0.2 ≤ ratioAt entries c → r < ratioAt entries c + 0.15 →
      getActivePageFromIntersections entries (some c) = some c) ∧
    (∀ c, c ≠ p → (ratioAt entries c < 0.2 ∨ ratioAt entries c + 0.15 ≤ r) →
      getActivePageFromIntersections entries (some c) = some p) ∧
    getActivePageFromIntersections [(3, 0.25), (4, 0.3)] (some 3) = some 3 ∧
    getActivePageFromIntersections [(3, 0.2), (4, 0.35)] (some 3) = some 4 := by
  have hne : entries ≠ [] := List.ne_nil_of_mem hmem
  have hempty : entries.isEmpty = false := by
    cases entries with
    | nil => exact absurd rfl hne
    | cons e t => rfl
  have hbe : bestEntry entries = (some p, r) := bestEntry_spec entries p r hk hmem hpos hmax
  refine ⟨?_, ?_, ?_, ?_, by decide, by decide⟩
  · simp [getActivePageFromIntersections, hempty, hbe]
  · simp [getActivePageFromIntersections, hempty, hbe]
  · intro c hcp h02 hlt
    have hcond : p ≠ c ∧ 0.2 ≤ ratioAt entries c ∧ r < ratioAt entries c + 0.15 :=
      ⟨fun h => hcp h.symm, h02, hlt⟩
    simp only [getActivePageFromIntersections, hempty, Bool.false_eq_true, if_false, hbe]
    rw [if_pos]
    exact ⟨fun h => hcp h.symm, h02, hlt⟩
  · intro c hcp hor
    simp only [getActivePageFromIntersections, hempty, Bool.false_eq_true, if_false, hbe]
    rw [if_neg]
    intro hcond
    rcases hor with h1 | h2
    · exact absurd hcond.2.1 (not_le.mpr h1)
    · exact absurd hcond.2.2 (not_lt.mpr h2)

/-- C3 counterexample to the claim as stated: with current=3 at ratio
0.2 and leader=4 at ratio 0.35 the leader's advantage is exactly 0.15 —
"does not exceed the current page's ratio by more than 0.15" — yet the
resolver switches to the leader instead of keeping the current page. -/
theorem claimC3_cex :
    (0.35 : ℚ) ≤ 0.2 + 0.15 ∧
    (0.2 : ℚ) ≥ 0.2 ∧
    getActivePageFromIntersections [(3, 0.2), (4, 0.35)] (some 3) = some 4 ∧
    getActivePageFromIntersections [(3, 0.2), (4, 0.35)] (some 3) ≠ some 3 := by
  refine ⟨by decide, by decide, by decide, by decide⟩

/-- C3 witness: the amended theorem applied to the spec's hysteresis
test map {3 ↦ 0.25, 4 ↦ 0.30} with current page 3. -/
theorem claimC3_witness :
    getActivePageFromIntersections [(3, 0.25), (4, 0.3)] (some 3) = some 3 :=
  (claimC3 [(3, 0.25), (4, 0.3)] 4 0.3 (by decide) (by decide) (by decide)
    (by decide)).2.2.1 3 (by decide) (by decide) (by decide)

/-! ## C4: the capture debouncer -/

/-- Running the closure from the state just after a call at time `t`
with value `v` behaves like the closed-form `debounceFires` on the trace
extended with that proposal. -/
theorem debRun_after_call {α : Type} (delayMs : Nat) (rest : List (Nat × α)) :
    ∀ t v, debRun delayMs ⟨some (t + delayMs), some v⟩ rest =
      debounceFires delayMs ((t, v) :: rest) := by
  induction rest with
  | nil => intro t v; rfl
  | cons e r2 ih =>
    intro t v
    obtain ⟨t2, v2⟩ := e
    show (if t + delayMs < t2 then [(t + delayMs, v)] else []) ++
        debRun delayMs (debCall delayMs t2 v2 ⟨some (t + delayMs), some v⟩) r2 =
      debounceFires delayMs ((t, v) :: (t2, v2) :: r2)
    rw [debounceFires]
    show _ = (if t + delayMs < t2 then [(t + delayMs, v)] else []) ++
      debounceFires delayMs ((t2, v2) :: r2)
    rw [show debCall delayMs t2 v2 ⟨some (t + delayMs), some v⟩ =
      (⟨some (t2 + delayMs), some v2⟩ : DebState α) from rfl]
    rw [ih t2 v2]

/-- The debouncer closure, driven from its initial state, computes the
closed form: a proposal fires at its deadline `t + delayMs` exactly when
no newer proposal arrives at or before that deadline. -/
theorem debounceActivePage_eq_fires {α : Type} (delayMs : Nat)
    (trace : List (Nat × α)) :
    debounceActivePage delayMs trace = debounceFires delayMs trace := by
  cases trace with
  | nil => rfl
  | cons e rest =>
    obtain ⟨t, v⟩ := e
    show debRun delayMs debInit ((t, v) :: rest) = _
    show [] ++ debRun delayMs (debCall delayMs t v debInit) rest = _
    rw [List.nil_append]
    exact debRun_after_call delayMs rest t v

/-- Every fire of the closed form comes from a proposal `(t, v)` of the
trace, fires at `t + delayMs`, and no other proposal falls strictly
inside the window `(t, t + delayMs]`. -/
theorem debounceFires_sound {α : Type} (delayMs : Nat) :
    ∀ trace : List (Nat × α), trace.Pairwise (fun a b => a.1 < b.1) →
      ∀ d v, (d, v) ∈ debounceFires delayMs trace →
        ∃ t, (t, v) ∈ trace ∧ d = t + delayMs ∧
          ∀ e ∈ trace, e.1 ≤ t ∨ d < e.1 := by
  intro trace
  induction trace with
  | nil => intro _ d v hmem; exact absurd hmem (List.not_mem_nil _)
  | cons e rest ih =>
    intro hs d v hmem
    obtain ⟨t1, v1⟩ := e
    obtain ⟨h1, hrest⟩ := List.pairwise_cons.mp hs
    cases rest with
    | nil =>
      rw [debounceFires] at hmem
      rcases List.mem_singleton.mp hmem with hdv
      obtain ⟨hd, hv⟩ := Prod.mk.injEq .. ▸ hdv
      refine ⟨t1, ?_, ?_, ?_⟩
      · rw [← hv]; exact List.mem_singleton.mpr rfl
      · rw [← hd]
      · intro x hx
        rcases List.mem_singleton.mp hx with hxe
        rw [hxe]
        exact Or.inl le_rfl
    | cons e2 r2 =>
      obtain ⟨t2, v2⟩ := e2
      rw [debounceFires] at hmem
      rcases List.mem_append.mp hmem with hhd | htl
      · -- fired from the head proposal
        have hcond : t1 + delayMs < t2 := by
          by_contra hc
          rw [if_neg hc] at hhd
          exact absurd hhd (List.not_mem_nil _)
        rw [if_pos hcond] at hhd
        rcases List.mem_singleton.mp hhd with hdv
        obtain ⟨hd, hv⟩ := Prod.mk.injEq .. ▸ hdv
        refine ⟨t1, ?_, hd, ?_⟩
        · rw [← hv]; exact List.mem_cons_self _ _
        · intro x hx
          rcases List.mem_cons.mp hx with hx1 | hx2
          · rw [hx1]; exact Or.inl le_rfl
          · right
            have ht2x : t2 ≤ x.1 := by
              rcases List.mem_cons.mp hx2 with hx21 | hx22
              · rw [hx21]
              · obtain ⟨h2, _⟩ := List.pairwise_cons.mp hrest
                exact le_of_lt (h2 x hx22)
            rw [hd]
            exact lt_of_lt_of_le hcond ht2x
      · -- fired from the tail
        obtain ⟨t, htv, hdt, hwin⟩ := ih hrest d v htl
        refine ⟨t, List.mem_cons_of_mem _ htv, hdt, ?_⟩
        intro x hx
        rcases List.mem_cons.mp hx with hx1 | hx2
        · left
          rw [hx1]
          exact le_of_lt (h1 (t, v) htv)
        · exact hwin x hx2

/-- C4 — the capture debouncer fires its callback only with a value that
was the latest proposal for the full 150 ms quiet period; a newer
proposal within the window implicitly cancels the older pending fire
(there is a single pending timer, restarted by every call); and the
composed `debouncedOnActive` trigger never fires for a `null` proposal
(`(d, p)` survives the null guard exactly when the debouncer fired
`some p`), nor for an unset (`undefined`) one, since every fired value
stems from a proposal in the trace. -/
theorem claimC4 (trace : List (Nat × Option Nat))
    (hs : trace.Pairwise fun a b => a.1 < b.1) :
    (∀ d v, (d, v) ∈ debounceActivePage DEBOUNCE_MS trace →
      ∃ t, (t, v) ∈ trace ∧ d = t + DEBOUNCE_MS ∧
        ∀ e ∈ trace, e.1 ≤ t ∨ d < e.1) ∧
    (∀ t v e, (t, v) ∈ trace → e ∈ trace → t < e.1 → e.1 ≤ t + DEBOUNCE_MS →
      ∀ w, (t + DEBOUNCE_MS, w) ∉ debounceActivePage DEBOUNCE_MS trace) ∧
    (∀ d p, (d, p) ∈ debouncedOnActive trace ↔
      (d, some p) ∈ debounceActivePage DEBOUNCE_MS trace) ∧
    (∀ s : DebState (Option Nat), ∀ t v,
      (debCall DEBOUNCE_MS t v s).timeoutId = some (t + DEBOUNCE_MS) ∧
      (debCall DEBOUNCE_MS t v s).lastValue = some v) := by
  have hsound := debounceFires_sound DEBOUNCE_MS trace hs
  rw [← debounceActivePage_eq_fires] at hsound
  refine ⟨hsound, ?_, ?_, ?_⟩
  · intro t v e htv he hlt hle w hmem
    obtain ⟨t0, ht0, hdt0, hwin⟩ := hsound (t + DEBOUNCE_MS) w hmem
    have ht0t : t0 = t := by omega
    subst ht0t
    rcases hwin e he with h | h
    · omega
    · omega
  · intro d p
    constructor
    · intro hmem
      obtain ⟨a, ha, hfa⟩ := List.mem_filterMap.mp hmem
      obtain ⟨t, x⟩ := a
      cases x with
      | none => exact absurd hfa (by simp)
      | some q =>
        have : t = d ∧ q = p := by
          constructor
          · exact congrArg Prod.fst (Option.some.injEq .. ▸ hfa)
          · exact congrArg Prod.snd (Option.some.injEq .. ▸ hfa)
        rw [← this.1, ← this.2]
        exact ha
    · intro hmem
      refine List.mem_filterMap.mpr ⟨(d, some p), hmem, rfl⟩
  · intro s t v
    exact ⟨rfl, rfl⟩

/-- C4 witness: the theorem applied to the trace “propose 1 at t=0,
propose 2 at t=100, propose null at t=300”; the null guard passes the
fire at t=250 for page 2. -/
theorem claimC4_witness :
    ((250 : Nat), (2 : Nat)) ∈ debouncedOnActive [(0, some 1), (100, some 2), (300, none)] ↔
      ((250 : Nat), some (2 : Nat)) ∈
        debounceActivePage DEBOUNCE_MS [(0, some 1), (100, some 2), (300, none)] :=
  (claimC4 [(0, some 1), (100, some 2), (300, none)] (by decide)).2.2.1 250 2

/-! ## C6: the per-page undo/redo model -/

/-- C6 — appending an annotation pushes the pre-append list onto the
page's undo stack and clears the page's redo stack; undo pops the most
recent saved list into current and pushes the pre-undo current list onto
redo; redo is the mirror; and from an empty page, append A, append B,
undo, undo, redo yields exactly `[A]`. -/
theorem claimC6 (s : AnnotStore) (p : Nat) (a A B : Annot)
    (lu : List (List Annot)) (pu : List Annot)
    (lr : List (List Annot)) (pr : List Annot)
    (hu : s.annotUndo p = lu ++ [pu]) (hr : s.annotRedo p = lr ++ [pr]) :
    ((appendAnnot p a s).annots p = s.annots p ++ [a] ∧
     (appendAnnot p a s).annotUndo p = s.annotUndo p ++ [s.annots p] ∧
     (appendAnnot p a s).annotRedo p = []) ∧
    ((undoAnnot p s).annots p = pu ∧
     (undoAnnot p s).annotUndo p = lu ∧
     (undoAnnot p s).annotRedo p = s.annotRedo p ++ [s.annots p]) ∧
    ((redoAnnot p s).annots p = pr ∧
     (redoAnnot p s).annotRedo p = lr ∧
     (redoAnnot p s).annotUndo p = s.annotUndo p ++ [s.annots p]) ∧
    (redoAnnot p (undoAnnot p (undoAnnot p
      (appendAnnot p B (appendAnnot p A AnnotStore.empty))))).annots p = [A] := by
  have hu_ne : (s.annotUndo p).isEmpty = false := by
    rw [hu]
    cases lu <;> rfl
  have hr_ne : (s.annotRedo p).isEmpty = false := by
    rw [hr]
    cases lr <;> rfl
  refine ⟨⟨?_, ?_, ?_⟩, ⟨?_, ?_, ?_⟩, ⟨?_, ?_, ?_⟩, ?_⟩
  · simp [appendAnnot]
  · simp [appendAnnot]
  · simp [appendAnnot]
  · simp [undoAnnot, hu_ne, hu]
  · simp [undoAnnot, hu_ne, hu]
  · simp [undoAnnot, hu_ne]
  · simp [redoAnnot, hr_ne, hr]
  · simp [redoAnnot, hr_ne, hr]
  · simp [redoAnnot, hr_ne]
  · simp [appendAnnot, undoAnnot, redoAnnot, AnnotStore.empty]

/-- C6 witness: the theorem applied to a one-page store with singleton
undo/redo stacks; the scenario conjunct yields `[A]` for concrete
redaction annotations. -/
theorem claimC6_witness :
    (redoAnnot 1 (undoAnnot 1 (undoAnnot 1
      (appendAnnot 1 (Annot.redaction 9 9 9 9)
        (appendAnnot 1 (Annot.redaction 1 2 3 4) AnnotStore.empty))))).annots 1 =
      [Annot.redaction 1 2 3 4] :=
  (claimC6 ⟨fun _ => [], fun _ => [[]], fun _ => [[]]⟩ 1
    (Annot.redaction 5 5 5 5) (Annot.redaction 1 2 3 4) (Annot.redaction 9 9 9 9)
    [] [] [] [] rfl rfl).2.2.2

/-! ## C7: selection-set effects of capture operations -/

/-- Membership after `set.add`. -/
theorem mem_setAdd (s : List Nat) (k q : Nat) :
    q ∈ setAdd s k ↔ q = k ∨ q ∈ s := by
  unfold setAdd
  by_cases hk : k ∈ s
  · rw [if_pos hk]
    constructor
    · exact Or.inr
    · intro h
      rcases h with h | h
      · rw [h]; exact hk
      · exact h
  · rw [if_neg hk]
    rw [List.mem_append, List.mem_singleton]
    exact Or.comm

/-- Membership after `set.delete`. -/
theorem mem_setDelete (s : List Nat) (k q : Nat) :
    q ∈ setDelete s k ↔ q ∈ s ∧ q ≠ k := by
  unfold setDelete
  rw [List.mem_filter]
  simp

/-- Lemma on `find?` over the in-place replacement map used by `mapSet`. -/
theorem find?_map_replace (m : List (Nat × CapturedPage)) (k : Nat) (v : CapturedPage) :
    ((m.map fun e => if e.1 == k then (k, v) else e).find? fun e => e.1 == k) =
      if m.any fun e => e.1 == k then some (k, v) else none := by
  induction m with
  | nil => rfl
  | cons e t ih =>
    by_cases he : e.1 = k
    · have heb : (e.1 == k) = true := beq_iff_eq.mpr he
      simp only [List.map_cons, List.any_cons, heb, Bool.true_or, if_pos, if_true]
      rw [List.find?_cons_of_pos]
      exact beq_self_eq_true k
    · have heb : (e.1 == k) = false := beq_eq_false_iff_ne.mpr he
      simp only [List.map_cons, List.any_cons, heb, Bool.false_or, if_false]
      rw [List.find?_cons_of_neg]
      · exact ih
      · simp [heb]

/-- Lemma: `mapGet` after `mapSet` at the same key returns the new value. -/
theorem mapGet_mapSet_self (m : List (Nat × CapturedPage)) (k : Nat) (v : CapturedPage) :
    mapGet (mapSet m k v) k = some v := by
  unfold mapGet mapSet
  by_cases hany : m.any fun e => e.1 == k
  · rw [if_pos hany, find?_map_replace, if_pos hany]
    rfl
  · rw [if_neg hany]
    have hnone : (m.find? fun e => e.1 == k) = none := by
      rw [List.find?_eq_none]
      intro x hx
      intro hxk
      exact hany (List.any_eq_true.mpr ⟨x, hx, hxk⟩)
    rw [List.find?_append, hnone, Option.none_or]
    rw [List.find?_cons_of_pos]
    · rfl
    · exact beq_self_eq_true k

/-- Lemma: `mapGet` after `mapDelete` at the deleted key is `none`. -/
theorem mapGet_mapDelete_self (m : List (Nat × CapturedPage)) (k : Nat) :
    mapGet (mapDelete m k) k = none := by
  unfold mapGet mapDelete
  rw [Option.map_eq_none', List.find?_eq_none]
  intro x hx hxk
  have := (List.mem_filter.mp hx).2
  simp only [decide_eq_true_eq] at this
  exact this (beq_iff_eq.mp hxk)

/-- C7 — completing a fresh capture stores the page's `CapturedPage` and
adds exactly that page to the selection set; a recapture (`setCapture`)
replaces the stored `CapturedPage` while leaving the whole selection set
unchanged; undo-capture (`removeCapture`) deletes the entry and removes
exactly that page from the selection set. -/
theorem claimC7 (s : AutoCaptureState) (p q : Nat) (cap : CapturedPage) :
    (p ∈ (addCapture p cap s).1.selectedForExport) ∧
    (q ∈ (addCapture p cap s).1.selectedForExport ↔ q = p ∨ q ∈ s.selectedForExport) ∧
    (mapGet (addCapture p cap s).1.captures p = some cap) ∧
    ((setCapture p cap s).1.selectedForExport = s.selectedForExport) ∧
    (mapGet (setCapture p cap s).1.captures p = some cap) ∧
    (q ∈ (removeCapture p s).1.selectedForExport ↔ q ∈ s.selectedForExport ∧ q ≠ p) ∧
    (mapGet (removeCapture p s).1.captures p = none) := by
  refine ⟨?_, ?_, ?_, rfl, ?_, ?_, ?_⟩
  · exact (mem_setAdd _ _ _).mpr (Or.inl rfl)
  · exact mem_setAdd _ _ _
  · exact mapGet_mapSet_self _ _ _
  · exact mapGet_mapSet_self _ _ _
  · exact mem_setDelete _ _ _
  · exact mapGet_mapDelete_self _ _

/-! ## C9: thumbnail object-URL accounting -/

/-- Duplicate-free keys as a pairwise statement on entries. -/
theorem keyPairwise {m : List (Nat × CapturedPage)} (hk : (keysOf m).Nodup) :
    m.Pairwise fun a b => a.1 ≠ b.1 :=
  List.pairwise_map.mp hk

/-- With duplicate-free keys, `mapGet` returns exactly the stored
binding. -/
theorem mapGet_eq_some_iff {m : List (Nat × CapturedPage)}
    (hk : (keysOf m).Nodup) (p : Nat) (c : CapturedPage) :
    mapGet m p = some c ↔ (p, c) ∈ m := by
  constructor
  · intro h
    unfold mapGet at h
    cases hfind : m.find? fun e => e.1 == p with
    | none => rw [hfind] at h; exact absurd h (by simp)
    | some e =>
      rw [hfind] at h
      have he : e ∈ m := List.mem_of_find?_eq_some hfind
      have hep : e.1 = p := by
        have := List.find?_some hfind
        exact beq_iff_eq.mp this
      have hec : e.2 = c := by simpa using h
      have hpe : e = (p, c) := Prod.ext hep hec
      rw [← hpe]
      exact he
  · intro h
    unfold mapGet
    have hsome : (m.find? fun e => e.1 == p).isSome :=
      List.find?_isSome.mpr ⟨(p, c), h, by simp⟩
    obtain ⟨e, hfind⟩ := Option.isSome_iff_exists.mp hsome
    rw [hfind]
    have he : e ∈ m := List.mem_of_find?_eq_some hfind
    have hep : e.1 = p := by
      have := List.find?_some hfind
      exact beq_iff_eq.mp this
    have hmem2 : (p, e.2) ∈ m := by
      have hpe : e = (p, e.2) := Prod.ext hep rfl
      rw [← hpe]
      exact he
    have hec : e.2 = c := pairwise_key_eq (keyPairwise hk) hmem2 h
    simp [hec]

/-- Lemma: `mapGet` misses keys that are not stored. -/
theorem mapGet_eq_none {m : List (Nat × CapturedPage)} {p : Nat}
    (hp : p ∉ keysOf m) : mapGet m p = none := by
  unfold mapGet
  rw [Option.map_eq_none', List.find?_eq_none]
  intro x hx hxk
  exact hp (List.mem_map.mpr ⟨x, hx, beq_iff_eq.mp hxk⟩)

/-- A map with duplicate-free keys splits around any stored binding. -/
theorem exists_key_decomp {m : List (Nat × CapturedPage)} {k : Nat} {c : CapturedPage}
    (hk : (keysOf m).Nodup) (hmem : (k, c) ∈ m) :
    ∃ l1 l2, m = l1 ++ (k, c) :: l2 ∧ k ∉ keysOf l1 ∧ k ∉ keysOf l2 := by
  obtain ⟨l1, l2, rfl⟩ := List.append_of_mem hmem
  refine ⟨l1, l2, rfl, ?_, ?_⟩
  · have hkk : keysOf (l1 ++ (k, c) :: l2) = keysOf l1 ++ k :: keysOf l2 := by
      simp [keysOf]
    rw [hkk] at hk
    have hnm := (List.nodup_cons.mp (List.nodup_middle.mp hk)).1
    intro hin
    exact hnm (List.mem_append.mpr (Or.inl hin))
  · have hkk : keysOf (l1 ++ (k, c) :: l2) = keysOf l1 ++ k :: keysOf l2 := by
      simp [keysOf]
    rw [hkk] at hk
    have hnm := (List.nodup_cons.mp (List.nodup_middle.mp hk)).1
    intro hin
    exact hnm (List.mem_append.mpr (Or.inr hin))

/-- The in-place replacement map of `mapSet` leaves entries with other
keys untouched. -/
theorem map_keep_of_not_key (l : List (Nat × CapturedPage)) (k : Nat) (v : CapturedPage)
    (h : k ∉ keysOf l) : (l.map fun e => if e.1 == k then (k, v) else e) = l := by
  induction l with
  | nil => rfl
  | cons e t ih =>
    have hek : (e.1 == k) = false := by
      rw [beq_eq_false_iff_ne]
      intro hc
      exact h (List.mem_map.mpr ⟨e, List.mem_cons_self e t, hc⟩)
    have ht : k ∉ keysOf t := by
      intro hc
      obtain ⟨x, hx, hxk⟩ := List.mem_map.mp hc
      exact h (List.mem_map.mpr ⟨x, List.mem_cons_of_mem e hx, hxk⟩)
    rw [List.map_cons, hek, ih ht]
    rfl

/-- Lemma: `filter` by key-difference leaves entries with other keys
untouched. -/
theorem filter_keep_of_not_key (l : List (Nat × CapturedPage)) (k : Nat)
    (h : k ∉ keysOf l) : (l.filter fun e => e.1 ≠ k) = l := by
  rw [List.filter_eq_self]
  intro e he
  rw [decide_eq_true_eq]
  intro hc
  exact h (List.mem_map.mpr ⟨e, he, hc⟩)

/-- Lemma: `mapSet` on a split map replaces the binding in place. -/
theorem mapSet_decomp (l1 l2 : List (Nat × CapturedPage)) (k : Nat) (c v : CapturedPage)
    (h1 : k ∉ keysOf l1) (h2 : k ∉ keysOf l2) :
    mapSet (l1 ++ (k, c) :: l2) k v = l1 ++ (k, v) :: l2 := by
  unfold mapSet
  have hany : ((l1 ++ (k, c) :: l2).any fun e => e.1 == k) = true :=
    List.any_eq_true.mpr ⟨(k, c), by simp, by simp⟩
  rw [if_pos hany, List.map_append, List.map_cons, map_keep_of_not_key l1 k v h1,
    map_keep_of_not_key l2 k v h2]
  norm_num

/-- Lemma: `mapDelete` on a split map deletes exactly the binding. -/
theorem mapDelete_decomp (l1 l2 : List (Nat × CapturedPage)) (k : Nat) (c : CapturedPage)
    (h1 : k ∉ keysOf l1) (h2 : k ∉ keysOf l2) :
    mapDelete (l1 ++ (k, c) :: l2) k = l1 ++ l2 := by
  unfold mapDelete
  rw [List.filter_append, List.filter_cons, filter_keep_of_not_key l1 k h1,
    filter_keep_of_not_key l2 k h2]
  norm_num

/-- Lemma: `mapGet` on a split map returns the binding. -/
theorem mapGet_decomp (l1 l2 : List (Nat × CapturedPage)) (k : Nat) (c : CapturedPage)
    (h1 : k ∉ keysOf l1) :
    mapGet (l1 ++ (k, c) :: l2) k = some c := by
  unfold mapGet
  have hnone : (l1.find? fun e => e.1 == k) = none := by
    rw [List.find?_eq_none]
    intro x hx hxk
    exact h1 (List.mem_map.mpr ⟨x, hx, beq_iff_eq.mp hxk⟩)
  rw [List.find?_append, hnone, Option.none_or, List.find?_cons_of_pos]
  · rfl
  · exact beq_self_eq_true k

/-- Lemma: `storedThumbs` distributes over the split. -/
theorem storedThumbs_decomp (l1 l2 : List (Nat × CapturedPage)) (k : Nat) (x : CapturedPage) :
    storedThumbs (l1 ++ (k, x) :: l2) =
      storedThumbs l1 ++ x.thumbnailUrl :: storedThumbs l2 := by
  simp [storedThumbs, thumbOf]

/-- Storing a fresh, non-empty thumbnail URL with `mapSet` (used by both
`addCapture` and `setCapture`) preserves the URL accounting invariant:
the replaced entry's URL (if any) moves to the revoked side and the new
URL is issued and stored. -/
theorem inv_mapSet {m : List (Nat × CapturedPage)} {issued revoked : List String}
    (k : Nat) (v : CapturedPage) (h : UrlInv m issued revoked)
    (hf : v.thumbnailUrl ∉ issued) (hne : v.thumbnailUrl ≠ "") :
    UrlInv (mapSet m k v) (issued ++ [v.thumbnailUrl]) (revoked ++ revokeOf m k) := by
  by_cases hk : k ∈ keysOf m
  · obtain ⟨e, hemem, hek⟩ := List.mem_map.mp hk
    have hmemkc : (k, e.2) ∈ m := by
      have hpe : e = (k, e.2) := Prod.ext hek rfl
      rw [← hpe]
      exact hemem
    obtain ⟨l1, l2, hm, h1, h2⟩ := exists_key_decomp h.keys_nodup hmemkc
    obtain ⟨hIff, hSNR, hND, hKND, hNE⟩ := h
    subst hm
    have hget : mapGet (l1 ++ (k, e.2) :: l2) k = some e.2 := mapGet_decomp l1 l2 k e.2 h1
    have hstold := storedThumbs_decomp l1 l2 k e.2
    have hstnew := storedThumbs_decomp l1 l2 k v
    rw [hstold] at hIff hSNR hND hNE
    simp only [List.mem_append, List.mem_cons] at hIff hSNR hNE
    have hctmem : (e.2.thumbnailUrl ∈ storedThumbs l1 ∨
        e.2.thumbnailUrl = e.2.thumbnailUrl ∨ e.2.thumbnailUrl ∈ storedThumbs l2) :=
      Or.inr (Or.inl rfl)
    have hct_ne : e.2.thumbnailUrl ≠ "" := hNE _ hctmem
    have hct_issued : e.2.thumbnailUrl ∈ issued := (hIff _).mpr (Or.inl hctmem)
    have hrev : revokeOf (l1 ++ (k, e.2) :: l2) k = [e.2.thumbnailUrl] := by
      unfold revokeOf
      rw [hget]
      simp [thumbIfNonEmpty, hct_ne]
    have hvt1 : v.thumbnailUrl ∉ storedThumbs l1 :=
      fun hc => hf ((hIff _).mpr (Or.inl (Or.inl hc)))
    have hvt2 : v.thumbnailUrl ∉ storedThumbs l2 :=
      fun hc => hf ((hIff _).mpr (Or.inl (Or.inr (Or.inr hc))))
    have hvt_not_rev : v.thumbnailUrl ∉ revoked :=
      fun hc => hf ((hIff _).mpr (Or.inr hc))
    have hndmid := List.nodup_cons.mp (List.nodup_middle.mp hND)
    rw [mapSet_decomp l1 l2 k e.2 v h1 h2, hrev]
    refine ⟨?_, ?_, ?_, ?_, ?_⟩
    · intro u
      rw [hstnew]
      simp only [List.mem_append, List.mem_cons, List.mem_singleton, List.not_mem_nil,
        or_false]
      constructor
      · rintro (hu | hu)
        · rcases (hIff u).mp hu with (h4 | h4 | h4) | h3
          · exact Or.inl (Or.inl h4)
          · exact Or.inr (Or.inr h4)
          · exact Or.inl (Or.inr (Or.inr h4))
          · exact Or.inr (Or.inl h3)
        · exact Or.inl (Or.inr (Or.inl hu))
      · rintro ((h4 | h4 | h4) | (h4 | h4))
        · exact Or.inl ((hIff u).mpr (Or.inl (Or.inl h4)))
        · exact Or.inr h4
        · exact Or.inl ((hIff u).mpr (Or.inl (Or.inr (Or.inr h4))))
        · exact Or.inl ((hIff u).mpr (Or.inr h4))
        · rw [h4]
          exact Or.inl hct_issued
    · intro u hu
      rw [hstnew] at hu
      simp only [List.mem_append, List.mem_cons] at hu
      simp only [List.mem_append, List.mem_singleton]
      rintro (hr | hr)
      · rcases hu with h4 | h4 | h4
        · exact hSNR u (Or.inl h4) hr
        · rw [h4] at hr
          exact hvt_not_rev hr
        · exact hSNR u (Or.inr (Or.inr h4)) hr
      · rcases hu with h4 | h4 | h4
        · rw [hr] at h4
          exact hndmid.1 (List.mem_append.mpr (Or.inl h4))
        · have hvc : v.thumbnailUrl = e.2.thumbnailUrl := by rw [← h4, hr]
          exact hf (by rw [hvc]; exact hct_issued)
        · rw [hr] at h4
          exact hndmid.1 (List.mem_append.mpr (Or.inr h4))
    · rw [hstnew, List.nodup_middle]
      refine List.nodup_cons.mpr ⟨?_, hndmid.2⟩
      intro hc
      rcases List.mem_append.mp hc with hc1 | hc2
      · exact hvt1 hc1
      · exact hvt2 hc2
    · have hknew : keysOf (l1 ++ (k, v) :: l2) = keysOf l1 ++ k :: keysOf l2 := by
        simp [keysOf]
      have hkold : keysOf (l1 ++ (k, e.2) :: l2) = keysOf l1 ++ k :: keysOf l2 := by
        simp [keysOf]
      rw [hknew, ← hkold]
      exact hKND
    · intro u hu
      rw [hstnew] at hu
      simp only [List.mem_append, List.mem_cons] at hu
      rcases hu with h4 | h4 | h4
      · exact hNE u (Or.inl h4)
      · rw [h4]
        exact hne
      · exact hNE u (Or.inr (Or.inr h4))
  · have hany : ¬ ((m.any fun e => e.1 == k) = true) := by
      rw [List.any_eq_true]
      rintro ⟨e, he, hek⟩
      exact hk (List.mem_map.mpr ⟨e, he, beq_iff_eq.mp hek⟩)
    have hset : mapSet m k v = m ++ [(k, v)] := by
      unfold mapSet
      rw [if_neg hany]
    have hrev : revokeOf m k = [] := by
      unfold revokeOf
      rw [mapGet_eq_none hk]
      rfl
    rw [hset, hrev, List.append_nil]
    obtain ⟨hIff, hSNR, hND, hKND, hNE⟩ := h
    have hstnew : storedThumbs (m ++ [(k, v)]) = storedThumbs m ++ [v.thumbnailUrl] := by
      simp [storedThumbs, thumbOf]
    have hknew : keysOf (m ++ [(k, v)]) = keysOf m ++ [k] := by simp [keysOf]
    refine ⟨?_, ?_, ?_, ?_, ?_⟩
    · intro u
      rw [hstnew]
      simp only [List.mem_append, List.mem_singleton]
      constructor
      · rintro (hu | hu)
        · rcases (hIff u).mp hu with h3 | h3
          · exact Or.inl (Or.inl h3)
          · exact Or.inr h3
        · exact Or.inl (Or.inr hu)
      · rintro ((h4 | h4) | h3)
        · exact Or.inl ((hIff u).mpr (Or.inl h4))
        · exact Or.inr h4
        · exact Or.inl ((hIff u).mpr (Or.inr h3))
    · intro u hu
      rw [hstnew] at hu
      rcases List.mem_append.mp hu with h4 | h4
      · exact hSNR u h4
      · rw [List.mem_singleton.mp h4]
        intro hc
        exact hf ((hIff _).mpr (Or.inr hc))
    · rw [hstnew]
      refine List.Nodup.append hND (List.nodup_singleton _) ?_
      intro u hu1 hu2
      rw [List.mem_singleton] at hu2
      rw [hu2] at hu1
      exact hf ((hIff _).mpr (Or.inl hu1))
    · rw [hknew]
      refine List.Nodup.append hKND (List.nodup_singleton _) ?_
      intro a ha1 ha2
      rw [List.mem_singleton] at ha2
      rw [ha2] at ha1
      exact hk ha1
    · intro u hu
      rw [hstnew] at hu
      rcases List.mem_append.mp hu with h4 | h4
      · exact hNE u h4
      · rw [List.mem_singleton.mp h4]
        exact hne

/-- Deleting an entry with `mapDelete` (used by `removeCapture`)
preserves the URL accounting invariant: the deleted entry's URL moves to
the revoked side. -/
theorem inv_mapDelete {m : List (Nat × CapturedPage)} {issued revoked : List String}
    (k : Nat) (h : UrlInv m issued revoked) :
    UrlInv (mapDelete m k) issued (revoked ++ revokeOf m k) := by
  by_cases hk : k ∈ keysOf m
  · obtain ⟨e, hemem, hek⟩ := List.mem_map.mp hk
    have hmemkc : (k, e.2) ∈ m := by
      have hpe : e = (k, e.2) := Prod.ext hek rfl
      rw [← hpe]
      exact hemem
    obtain ⟨l1, l2, hm, h1, h2⟩ := exists_key_decomp h.keys_nodup hmemkc
    obtain ⟨hIff, hSNR, hND, hKND, hNE⟩ := h
    subst hm
    have hget : mapGet (l1 ++ (k, e.2) :: l2) k = some e.2 := mapGet_decomp l1 l2 k e.2 h1
    have hstold := storedThumbs_decomp l1 l2 k e.2
    rw [hstold] at hIff hSNR hND hNE
    simp only [List.mem_append, List.mem_cons] at hIff hSNR hNE
    have hctmem : (e.2.thumbnailUrl ∈ storedThumbs l1 ∨
        e.2.thumbnailUrl = e.2.thumbnailUrl ∨ e.2.thumbnailUrl ∈ storedThumbs l2) :=
      Or.inr (Or.inl rfl)
    have hct_ne : e.2.thumbnailUrl ≠ "" := hNE _ hctmem
    have hct_issued : e.2.thumbnailUrl ∈ issued := (hIff _).mpr (Or.inl hctmem)
    have hrev : revokeOf (l1 ++ (k, e.2) :: l2) k = [e.2.thumbnailUrl] := by
      unfold revokeOf
      rw [hget]
      simp [thumbIfNonEmpty, hct_ne]
    have hndmid := List.nodup_cons.mp (List.nodup_middle.mp hND)
    rw [mapDelete_decomp l1 l2 k e.2 h1 h2, hrev]
    have hstnew : storedThumbs (l1 ++ l2) = storedThumbs l1 ++ storedThumbs l2 := by
      simp [storedThumbs]
    refine ⟨?_, ?_, ?_, ?_, ?_⟩
    · intro u
      rw [hstnew]
      simp only [List.mem_append, List.mem_singleton]
      constructor
      · intro hu
        rcases (hIff u).mp hu with (h4 | h4 | h4) | h3
        · exact Or.inl (Or.inl h4)
        · exact Or.inr (Or.inr h4)
        · exact Or.inl (Or.inr h4)
        · exact Or.inr (Or.inl h3)
      · rintro ((h4 | h4) | (h4 | h4))
        · exact (hIff u).mpr (Or.inl (Or.inl h4))
        · exact (hIff u).mpr (Or.inl (Or.inr (Or.inr h4)))
        · exact (hIff u).mpr (Or.inr h4)
        · rw [h4]
          exact hct_issued
    · intro u hu
      rw [hstnew] at hu
      simp only [List.mem_append, List.mem_singleton]
      rintro (hr | hr)
      · rcases List.mem_append.mp hu with h4 | h4
        · exact hSNR u (Or.inl h4) hr
        · exact hSNR u (Or.inr (Or.inr h4)) hr
      · rw [hr] at hu
        exact hndmid.1 hu
    · rw [hstnew]
      exact hndmid.2
    · have hknew : keysOf (l1 ++ l2) = keysOf l1 ++ keysOf l2 := by simp [keysOf]
      have hkold : keysOf (l1 ++ (k, e.2) :: l2) = keysOf l1 ++ k :: keysOf l2 := by
        simp [keysOf]
      rw [hkold] at hKND
      rw [hknew]
      exact (List.nodup_cons.mp (List.nodup_middle.mp hKND)).2
    · intro u hu
      rw [hstnew] at hu
      rcases List.mem_append.mp hu with h4 | h4
      · exact hNE u (Or.inl h4)
      · exact hNE u (Or.inr (Or.inr h4))
  · have hdel : mapDelete m k = m := filter_keep_of_not_key m k hk
    have hrev : revokeOf m k = [] := by
      unfold revokeOf
      rw [mapGet_eq_none hk]
      rfl
    rw [hdel, hrev, List.append_nil]
    exact h

/-- The revocation guard recovers exactly the stored bindings among a
key list. -/
theorem thumbIfNonEmpty_mapGet_eq_some {m : List (Nat × CapturedPage)}
    (hk : (keysOf m).Nodup) (hne : ∀ u ∈ storedThumbs m, u ≠ "")
    (pn : Nat) (u : String) :
    thumbIfNonEmpty (mapGet m pn) = some u ↔ ∃ c, (pn, c) ∈ m ∧ c.thumbnailUrl = u := by
  cases hget : mapGet m pn with
  | none =>
    simp only [thumbIfNonEmpty]
    constructor
    · intro hgu
      exact absurd hgu (by simp)
    · rintro ⟨c, hc, hcu⟩
      have hcontra := (mapGet_eq_some_iff hk pn c).mpr hc
      rw [hget] at hcontra
      exact absurd hcontra (by simp)
  | some c =>
    simp only [thumbIfNonEmpty]
    constructor
    · intro hgu
      by_cases hcne : c.thumbnailUrl ≠ ""
      · rw [if_pos hcne] at hgu
        exact ⟨c, (mapGet_eq_some_iff hk pn c).mp hget, Option.some.inj hgu⟩
      · rw [if_neg hcne] at hgu
        exact absurd hgu (by simp)
    · rintro ⟨c', hc', hcu⟩
      have hcc : c' = c := by
        have hcontra := (mapGet_eq_some_iff hk pn c').mpr hc'
        rw [hget] at hcontra
        exact (Option.some.inj hcontra).symm
      subst hcc
      have hcne : c'.thumbnailUrl ≠ "" :=
        hne _ (List.mem_map.mpr ⟨(pn, c'), hc', rfl⟩)
      rw [if_pos hcne, hcu]

/-- Deleting all entries whose key lies in `ks` while revoking their
thumbnails (the shape of `removeSelectedCaptures`) preserves the URL
accounting invariant. -/
theorem inv_removeKeys {m : List (Nat × CapturedPage)} {issued revoked : List String}
    (ks : List Nat) (h : UrlInv m issued revoked) :
    UrlInv (m.filter fun e => e.1 ∉ ks) issued
      (revoked ++ ks.filterMap fun pn => thumbIfNonEmpty (mapGet m pn)) := by
  obtain ⟨hIff, hSNR, hND, hKND, hNE⟩ := h
  have hrevnew : ∀ u, (u ∈ ks.filterMap fun pn => thumbIfNonEmpty (mapGet m pn)) ↔
      ∃ e ∈ m, e.1 ∈ ks ∧ thumbOf e = u := by
    intro u
    rw [List.mem_filterMap]
    constructor
    · rintro ⟨pn, hpn, hg⟩
      obtain ⟨c, hc, hcu⟩ := (thumbIfNonEmpty_mapGet_eq_some hKND hNE pn u).mp hg
      exact ⟨(pn, c), hc, hpn, hcu⟩
    · rintro ⟨e, he, hek, heu⟩
      refine ⟨e.1, hek, ?_⟩
      rw [thumbIfNonEmpty_mapGet_eq_some hKND hNE]
      exact ⟨e.2, by simpa using he, heu⟩
  have hstored' : ∀ u, (u ∈ storedThumbs (m.filter fun e => e.1 ∉ ks)) ↔
      ∃ e ∈ m, e.1 ∉ ks ∧ thumbOf e = u := by
    intro u
    unfold storedThumbs
    rw [List.mem_map]
    constructor
    · rintro ⟨e, he, heu⟩
      have hm := List.mem_filter.mp he
      exact ⟨e, hm.1, by simpa using hm.2, heu⟩
    · rintro ⟨e, he, hek, heu⟩
      exact ⟨e, List.mem_filter.mpr ⟨he, by simpa using hek⟩, heu⟩
  have hstoredm : ∀ u, (u ∈ storedThumbs m) ↔ ∃ e ∈ m, thumbOf e = u := by
    intro u
    unfold storedThumbs
    exact List.mem_map
  refine ⟨?_, ?_, ?_, ?_, ?_⟩
  · intro u
    rw [List.mem_append, hstored', hrevnew]
    constructor
    · intro hu
      rcases (hIff u).mp hu with hst | hr
      · obtain ⟨e, he, heu⟩ := (hstoredm u).mp hst
        by_cases hek : e.1 ∈ ks
        · exact Or.inr (Or.inr ⟨e, he, hek, heu⟩)
        · exact Or.inl ⟨e, he, hek, heu⟩
      · exact Or.inr (Or.inl hr)
    · rintro (⟨e, he, _, heu⟩ | hr | ⟨e, he, _, heu⟩)
      · exact (hIff u).mpr (Or.inl ((hstoredm u).mpr ⟨e, he, heu⟩))
      · exact (hIff u).mpr (Or.inr hr)
      · exact (hIff u).mpr (Or.inl ((hstoredm u).mpr ⟨e, he, heu⟩))
  · intro u hu
    obtain ⟨e, he, hek, heu⟩ := (hstored' u).mp hu
    rw [List.mem_append]
    rintro (hr | hr)
    · exact hSNR u ((hstoredm u).mpr ⟨e, he, heu⟩) hr
    · obtain ⟨e', he', hek', heu'⟩ := (hrevnew u).mp hr
      have hee : e ≠ e' := by
        intro hc
        rw [hc] at hek
        exact hek hek'
      have : thumbOf e ≠ thumbOf e' := map_nodup_ne hND he he' hee
      rw [heu, heu'] at this
      exact this rfl
  · exact List.Nodup.sublist (List.Sublist.map thumbOf (List.filter_sublist m)) hND
  · exact List.Nodup.sublist (List.Sublist.map Prod.fst (List.filter_sublist m)) hKND
  · intro u hu
    obtain ⟨e, he, _, heu⟩ := (hstored' u).mp hu
    exact hNE u ((hstoredm u).mpr ⟨e, he, heu⟩)

/-- Clearing the whole map while revoking every stored thumbnail (the
shape of `clearAllCaptures`) preserves the URL accounting invariant. -/
theorem inv_clearAll {m : List (Nat × CapturedPage)} {issued revoked : List String}
    (h : UrlInv m issued revoked) :
    UrlInv [] issued (revoked ++ m.filterMap fun e => thumbIfNonEmpty (some e.2)) := by
  obtain ⟨hIff, hSNR, hND, hKND, hNE⟩ := h
  have hrevnew : ∀ u, (u ∈ m.filterMap fun e => thumbIfNonEmpty (some e.2)) ↔
      u ∈ storedThumbs m := by
    intro u
    rw [List.mem_filterMap]
    unfold storedThumbs
    rw [List.mem_map]
    constructor
    · rintro ⟨e, he, hg⟩
      simp only [thumbIfNonEmpty] at hg
      by_cases hcne : e.2.thumbnailUrl ≠ ""
      · rw [if_pos hcne] at hg
        exact ⟨e, he, Option.some.inj hg⟩
      · rw [if_neg hcne] at hg
        exact absurd hg (by simp)
    · rintro ⟨e, he, heu⟩
      refine ⟨e, he, ?_⟩
      have hcne : e.2.thumbnailUrl ≠ "" :=
        hNE (thumbOf e) (List.mem_map.mpr ⟨e, he, rfl⟩)
      simp only [thumbIfNonEmpty]
      rw [if_pos hcne]
      exact congrArg some heu
  refine ⟨?_, ?_, ?_, ?_, ?_⟩
  · intro u
    rw [List.mem_append, hrevnew]
    constructor
    · intro hu
      rcases (hIff u).mp hu with hst | hr
      · exact Or.inr (Or.inr hst)
      · exact Or.inr (Or.inl hr)
    · rintro (hst | hr | hst)
      · exact absurd hst (List.not_mem_nil u)
      · exact (hIff u).mpr (Or.inr hr)
      · exact (hIff u).mpr (Or.inl hst)
  · intro u hu
    exact absurd hu (by simp [storedThumbs])
  · simp [storedThumbs]
  · simp [keysOf]
  · intro u hu
    exact absurd hu (by simp [storedThumbs])

/-- Every single context operation preserves the URL accounting
invariant, provided the thumbnails it issues are fresh and non-empty. -/
theorem runCtxOp_inv (s : AutoCaptureState) (issued revoked : List String) (op : CtxOp)
    (h : UrlInv s.captures issued revoked)
    (hf : ∀ u ∈ op.issued, u ∉ issued)
    (hne : ∀ u ∈ op.issued, u ≠ "") :
    UrlInv (runCtxOp s op).1.captures (issued ++ op.issued)
      (revoked ++ (runCtxOp s op).2) := by
  cases op with
  | add p cap =>
    exact inv_mapSet p cap h (hf _ (List.mem_singleton.mpr rfl))
      (hne _ (List.mem_singleton.mpr rfl))
  | set p cap =>
    exact inv_mapSet p cap h (hf _ (List.mem_singleton.mpr rfl))
      (hne _ (List.mem_singleton.mpr rfl))
  | remove p =>
    simp only [runCtxOp, removeCapture, CtxOp.issued, List.append_nil]
    exact inv_mapDelete p h
  | removeSelected =>
    simp only [runCtxOp, removeSelectedCaptures, CtxOp.issued, List.append_nil]
    exact inv_removeKeys _ h
  | clearAll =>
    simp only [runCtxOp, clearAllCaptures, CtxOp.issued, List.append_nil]
    exact inv_clearAll h
  | toggle p => simpa [runCtxOp, CtxOp.issued, toggleSelected] using h
  | selectAll => simpa [runCtxOp, CtxOp.issued, selectAllCaptured] using h
  | deselectAll => simpa [runCtxOp, CtxOp.issued, deselectAllCaptured] using h
  | beginCapturing p => simpa [runCtxOp, CtxOp.issued, addCapturing] using h
  | stopCapturing p => simpa [runCtxOp, CtxOp.issued, removeCapturing] using h

/-- Running any operation sequence whose issued thumbnails are fresh,
pairwise distinct and non-empty preserves the URL accounting
invariant. -/
theorem runCtxOps_inv (ops : List CtxOp) :
    ∀ (s : AutoCaptureState) (issued revoked : List String),
      UrlInv s.captures issued revoked →
      (issued ++ issuedThumbs ops).Nodup →
      (∀ u ∈ issuedThumbs ops, u ≠ "") →
      UrlInv (runCtxOps s ops).1.captures (issued ++ issuedThumbs ops)
        (revoked ++ (runCtxOps s ops).2) := by
  induction ops with
  | nil =>
    intro s issued revoked h _ _
    simpa [runCtxOps, issuedThumbs] using h
  | cons op ops ih =>
    intro s issued revoked h hnd hne
    have hthumbs : issuedThumbs (op :: ops) = op.issued ++ issuedThumbs ops := by
      simp [issuedThumbs]
    rw [hthumbs] at hnd hne ⊢
    have hdisj := (List.nodup_append.mp hnd).2.2
    have hf : ∀ u ∈ op.issued, u ∉ issued := fun u hu hui =>
      hdisj hui (List.mem_append.mpr (Or.inl hu))
    have hne1 : ∀ u ∈ op.issued, u ≠ "" := fun u hu =>
      hne u (List.mem_append.mpr (Or.inl hu))
    have hne2 : ∀ u ∈ issuedThumbs ops, u ≠ "" := fun u hu =>
      hne u (List.mem_append.mpr (Or.inr hu))
    have hnd2 : ((issued ++ op.issued) ++ issuedThumbs ops).Nodup := by
      rw [List.append_assoc]
      exact hnd
    have hstep := runCtxOp_inv s issued revoked op h hf hne1
    have hrec := ih (runCtxOp s op).1 (issued ++ op.issued)
      (revoked ++ (runCtxOp s op).2) hstep hnd2 hne2
    rw [List.append_assoc, List.append_assoc] at hrec
    simpa only [runCtxOps] using hrec

/-- C9 — thumbnail object-URL ownership: along any sequence of context
operations whose issued thumbnail URLs are pairwise distinct and
non-empty (as `URL.createObjectURL` guarantees), every replacement or
deletion path revokes the outgoing entry's URL, so an issued URL is
unrevoked exactly when it is the thumbnail URL of a currently stored
`CapturedPage`. -/
theorem claimC9 (ops : List CtxOp)
    (hnd : (issuedThumbs ops).Nodup)
    (hne : ∀ u ∈ issuedThumbs ops, u ≠ "") :
    ∀ u, (u ∈ issuedThumbs ops ∧ u ∉ (runCtxOps AutoCaptureState.empty ops).2) ↔
      ∃ e ∈ (runCtxOps AutoCaptureState.empty ops).1.captures, thumbOf e = u := by
  have h0 : UrlInv AutoCaptureState.empty.captures [] [] := by
    refine ⟨?_, ?_, ?_, ?_, ?_⟩ <;> simp [storedThumbs, keysOf, AutoCaptureState.empty]
  have h := runCtxOps_inv ops AutoCaptureState.empty [] [] h0
    (by simpa using hnd) hne
  rw [List.nil_append, List.nil_append] at h
  intro u
  constructor
  · rintro ⟨hu, hnr⟩
    rcases (h.issue_iff u).mp hu with hst | hr
    · exact List.mem_map.mp hst
    · exact absurd hr hnr
  · rintro ⟨e, he, hte⟩
    have hst : u ∈ storedThumbs (runCtxOps AutoCaptureState.empty ops).1.captures :=
      List.mem_map.mpr ⟨e, he, hte⟩
    exact ⟨(h.issue_iff u).mpr (Or.inl hst), h.stored_not_revoked u hst⟩

/-- C9 witness: the theorem applied to capture page 1, recapture it
(revoking `u1`), undo-capture it (revoking `u2`) and capture page 2 —
`u3` is the only unrevoked issued URL and the only stored thumbnail. -/
theorem claimC9_witness :
    (("u3" ∈ issuedThumbs
        [CtxOp.add 1 ⟨0, "u1"⟩, CtxOp.set 1 ⟨1, "u2"⟩, CtxOp.remove 1,
         CtxOp.add 2 ⟨2, "u3"⟩] ∧
      "u3" ∉ (runCtxOps AutoCaptureState.empty
        [CtxOp.add 1 ⟨0, "u1"⟩, CtxOp.set 1 ⟨1, "u2"⟩, CtxOp.remove 1,
         CtxOp.add 2 ⟨2, "u3"⟩]).2) ↔
      ∃ e ∈ (runCtxOps AutoCaptureState.empty
        [CtxOp.add 1 ⟨0, "u1"⟩, CtxOp.set 1 ⟨1, "u2"⟩, CtxOp.remove 1,
         CtxOp.add 2 ⟨2, "u3"⟩]).1.captures, thumbOf e = "u3") :=
  claimC9 [CtxOp.add 1 ⟨0, "u1"⟩, CtxOp.set 1 ⟨1, "u2"⟩, CtxOp.remove 1,
    CtxOp.add 2 ⟨2, "u3"⟩] (by decide) (by decide) "u3"

/-! ## C1: the global capture guard -/

/-- C1 (amended) — while the global `capturingRef` guard is held,
auto-capture (debounced settle) and capture-now requests are complete
no-ops, and every capture completion — success or failure — clears the
guard in its `finally` path; a recapture request, however, force-clears
the guard first (`handleRecapture` sets `capturingRef.current = false`)
and therefore always starts a new in-flight capture rather than
no-opping. -/
theorem claimC1 (s : SysState) (p q : Nat) (i : Nat) (res : Option CapturedPage)
    (msg : String) (fl : Flight)
    (h : s.capturingRef = true) (hfl : s.inFlight[i]? = some fl) :
    sysStep s (.settle p) = s ∧
    sysStep s (.captureNow p) = s ∧
    (sysStep s (.finish i res msg)).capturingRef = false ∧
    (sysStep s (.recapture q)).capturingRef = true ∧
    (sysStep s (.recapture q)).inFlight = s.inFlight ++ [⟨q, true⟩] := by
  refine ⟨?_, ?_, ?_, ?_, ?_⟩
  · simp [sysStep, performCaptureStart, h]
  · simp [sysStep, performCaptureStart, h]
  · cases res <;> simp [sysStep, hfl]
  · simp [sysStep, performCaptureStart]
  · simp [sysStep, performCaptureStart]

/-- C1 counterexample to the claim as stated: with an auto-capture of
page 1 in flight (guard held), a recapture request for page 2 is not a
no-op — it resets the guard and starts a second concurrent capture. -/
theorem claimC1_cex :
    (runSys initSys [.settle 1]).capturingRef = true ∧
    runSys initSys [.settle 1, .recapture 2] ≠ runSys initSys [.settle 1] ∧
    (runSys initSys [.settle 1, .recapture 2]).inFlight =
      [⟨1, false⟩, ⟨2, true⟩] := by
  refine ⟨by decide, by decide, by decide⟩

/-- C1 witness: with the guard held by the in-flight capture of page 1,
a settle of page 2 is a no-op. -/
theorem claimC1_witness :
    sysStep (runSys initSys [SysEv.settle 1]) (SysEv.settle 2) =
      runSys initSys [SysEv.settle 1] :=
  (claimC1 (runSys initSys [SysEv.settle 1]) 2 2 0 none "" ⟨1, false⟩
    (by decide) (by decide)).1

/-! ## C2: at-most-once auto-capture -/

/-- C2 (amended) — the debounced auto-capture trigger is a no-op for any
page currently in `capturedSet` or `capturingSet`, so a page is
auto-captured at most once while it stays captured; the spec's scenario
(active-page plateaus 1, 2, 1 with completed captures) auto-captures
page 1 exactly once.  After an undo-capture the page leaves
`capturedSet` and is auto-captured again (see `claimC2_cex`). -/
theorem claimC2 (s : SysState) (p : Nat)
    (h : p ∈ capturedSet s.ctx ∨ p ∈ s.ctx.capturingSet) :
    sysStep s (.settle p) = s ∧
    ((runSys initSys [.settle 1, .finish 0 (some ⟨10, "t1"⟩) "", .settle 2,
        .finish 0 (some ⟨20, "t2"⟩) "", .settle 1]).captureLog.filter
      fun e => e.1 == Origin.auto && e.2 == 1).length = 1 := by
  constructor
  · simp [sysStep, h]
  · decide

/-- C2 counterexample to the claim as stated: page 1 reaches `captured`,
is undone (`removeCapture`), becomes active again and is auto-captured a
second time — the auto-capture log for page 1 has two entries, so
"at most once ever … including after undo-capture" fails on the code. -/
theorem claimC2_cex :
    statusOf (runSys initSys [.settle 1, .finish 0 (some ⟨10, "t1"⟩) ""]).ctx 1 =
      .captured ∧
    ((runSys initSys [.settle 1, .finish 0 (some ⟨10, "t1"⟩) "", .undoCapture 1,
        .settle 1, .finish 0 (some ⟨20, "t2"⟩) ""]).captureLog.filter
      fun e => e.1 == Origin.auto && e.2 == 1).length = 2 := by
  refine ⟨by decide, by decide⟩

/-- C2 witness: with page 1 captured, a further settle of page 1 is a
no-op. -/
theorem claimC2_witness :
    sysStep (runSys initSys [SysEv.settle 1, SysEv.finish 0 (some ⟨10, "t1"⟩) ""])
        (SysEv.settle 1) =
      runSys initSys [SysEv.settle 1, SysEv.finish 0 (some ⟨10, "t1"⟩) ""] :=
  (claimC2 (runSys initSys [SysEv.settle 1, SysEv.finish 0 (some ⟨10, "t1"⟩) ""]) 1
    (by decide)).1

/-! ## C5: atomic per-page capture failure -/

/-- C5 — when a capture fails, no `CapturedPage` is stored (the captures
map is untouched); a failed first-time capture reverts the page to
`idle` (it was not captured, and `removeCapturing` clears its capturing
marker); a failed recapture leaves the whole context state — prior
captured entry, old image, selection — intact; and exactly one error
message naming the failure is surfaced. -/
theorem claimC5 (s : SysState) (i : Nat) (fl : Flight) (msg : String)
    (hfl : s.inFlight[i]? = some fl) :
    ((sysStep s (.finish i none msg)).ctx.captures = s.ctx.captures) ∧
    (fl.replace = true → (sysStep s (.finish i none msg)).ctx = s.ctx) ∧
    (fl.replace = false → fl.pageNum ∉ capturedSet s.ctx →
      statusOf (sysStep s (.finish i none msg)).ctx fl.pageNum = .idle) ∧
    ((sysStep s (.finish i none msg)).errors =
      s.errors ++ ["Capture failed: " ++ msg]) := by
  refine ⟨?_, ?_, ?_, ?_⟩
  · cases hrep : fl.replace <;> simp [sysStep, hfl, hrep, removeCapturing]
  · intro hrep
    simp [sysStep, hfl, hrep]
  · intro hrep hnc
    have hctx : (sysStep s (.finish i none msg)).ctx =
        removeCapturing fl.pageNum s.ctx := by
      simp [sysStep, hfl, hrep]
    rw [hctx]
    unfold statusOf
    rw [if_neg, if_neg]
    · intro hc
      exact ((mem_setDelete _ _ _).mp hc).2 rfl
    · intro hc
      exact hnc hc
  · cases hrep : fl.replace <;> simp [sysStep, hfl, hrep]

/-- C5 witness: the in-flight first capture of page 1 fails; the page is
back to `idle`. -/
theorem claimC5_witness :
    statusOf (sysStep (runSys initSys [SysEv.settle 1])
        (SysEv.finish 0 none "boom")).ctx 1 = .idle :=
  (claimC5 (runSys initSys [SysEv.settle 1]) 0 ⟨1, false⟩ "boom"
    (by decide)).2.2.1 (by decide) (by decide)

/-! ## C10: the dimension-gated flattening step -/

/-- C10 — `compositeCanvasesToBlob` draws the overlay on top of the base
render exactly when the overlay exists and its width and height both
equal the base canvas's dimensions; for a `null` overlay or any
dimension mismatch the output is silently the base render alone, at the
base canvas's dimensions, with no failure. -/
theorem claimC10 (pdfCanvas ov : Canvas) (format : ExportFormat) (q : ℚ) :
    ((compositeCanvasesToBlob pdfCanvas (some ov) format q).layers =
      if ov.width = pdfCanvas.width ∧ ov.height = pdfCanvas.height then
        [pdfCanvas.image, ov.image]
      else [pdfCanvas.image]) ∧
    (compositeCanvasesToBlob pdfCanvas none format q).layers = [pdfCanvas.image] ∧
    (compositeCanvasesToBlob pdfCanvas (some ov) format q).width = pdfCanvas.width ∧
    (compositeCanvasesToBlob pdfCanvas (some ov) format q).height = pdfCanvas.height := by
  refine ⟨?_, rfl, rfl, rfl⟩
  unfold compositeCanvasesToBlob
  by_cases hdim : ov.width = pdfCanvas.width ∧ ov.height = pdfCanvas.height
  · rw [if_pos hdim]
    simp [if_pos hdim]
  · rw [if_neg hdim]
    simp [if_neg hdim]

end PdfScreenshotter
